import Mathlib

/-!
Verification development for the EduSync day-planning engine
(`src/SuperAI.cpp` / `src/SuperAI.h`).

Shallow embedding conventions:
* `QDateTime` values are integer timestamps in seconds on a uniform local
  timeline; `QDate` values are integer day indices (86400 seconds per day).
* C++ `double` arithmetic in the scoring heuristics is modelled exactly
  over `ℚ`; none of the constants involved lose precision in `double`
  at the magnitudes the claims are about.
* `QVector`/`QList` are `List`; `QColor` is its hex string; `QString` is
  `String`.
* The one loop without a structural measure (the carve loop of
  `scheduleTasksIntoWindows`) is defined with an explicit fuel that
  provably dominates its recursion depth; `carve` packages the canonical
  (fuel-sufficient) call and a congruence lemma shows the fuel never runs
  out at that value.
-/

namespace EduSync

/-- Day index of a timestamp: 86400 seconds per civil day
(`QDateTime::date` on the uniform timeline; `/` on `Int` is floor
division, matching "the day containing `t`"). -/
def qdate (t : Int) : Int := t / 86400

/-- Hour-of-day of a timestamp (`QDateTime::time().hour()`), in `0..23`. -/
def hourOf (t : Int) : Int := t % 86400 / 3600

/-- `SuperAI::minutesBetween`: whole minutes between `s` and `e`,
clamped at 0 for negative ranges (`std::max(0, int(s.secsTo(e)/60))`). -/
def minutesBetween (s e : Int) : Nat := (e - s).toNat / 60

/-- `QColor` values, abstracted: the planner constructs exactly the
three palette colors and never inspects a color, so they are modelled
as an enumeration (with an escape constructor for colors of
caller-supplied events). -/
inductive Color where
  | taskBlue
  | habitGreen
  | bufferGray
  | other (name : String)
deriving Repr, DecidableEq

/-- Palette helper `kTaskBlue` (`QColor "#2f6feb"`, task chunk blocks). -/
def kTaskBlue : Color := Color.taskBlue

/-- Palette helper `kHabitGreen` (`QColor "#22c55e"`, habit blocks). -/
def kHabitGreen : Color := Color.habitGreen

/-- Palette helper `kBufferGray` (`QColor "#9aa3ab"`, buffer blocks). -/
def kBufferGray : Color := Color.bufferGray

/-- A calendar event (`Event`): title, description, start, end, color.
`id`/`seriesId` play no role in the planner and are omitted. -/
structure Event where
  title : String
  descr : String
  startTime : Int
  endTime : Int
  color : Color
deriving Repr, DecidableEq

/-- `SuperAI::mkEvent`: uses the title both as title and description. -/
def mkEvent (title : String) (s e : Int) (c : Color) : Event :=
  ⟨title, title, s, e, c⟩

/-- `SuperAI::Task`. `deadline` is `none` for an invalid (unset)
`QDateTime`. Effort, priority and chunk cap are the nonnegative
quantities documented in the header (minutes, 1..5, minutes). -/
structure Task where
  id : String
  title : String
  estimateMin : Nat
  priority : Nat
  deadline : Option Int
  mustMorning : Bool
  mustAfternoon : Bool
  flexible : Bool
  splitOK : Bool
  maxChunkMin : Nat
  notes : String
deriving Repr, DecidableEq

/-- `SuperAI::Habit`. -/
structure Habit where
  title : String
  targetMinPerDay : Nat
  anchor : String
  priority : Nat
deriving Repr, DecidableEq

/-- `SuperAI::Slot` (also the local `Seg`/`MSlot` of `SuperAI.cpp`,
which have the same shape): a half-open time window `[start, stop)`. -/
structure Slot where
  start : Int
  stop : Int
deriving Repr, DecidableEq

/-- 06:00 of the given day (`QDateTime(day, QTime(6,0))`). -/
def dayStartOf (day : Int) : Int := day * 86400 + 6 * 3600

/-- 22:00 of the given day (`QDateTime(day, QTime(22,0))`). -/
def dayEndOf (day : Int) : Int := day * 86400 + 22 * 3600

/-- First phase of `SuperAI::freeWindows`: clamp each busy event to the
day window and collect, skipping events whose date range misses `day`
and events whose clamped span is empty. -/
def clampSegs (day : Int) (busy : List Event) : List Slot :=
  busy.filterMap fun e =>
    if qdate e.startTime > day ∨ qdate e.endTime < day then none
    else
      let cs := max (dayStartOf day) e.startTime
      let ce := min (dayEndOf day) e.endTime
      if cs < ce then some ⟨cs, ce⟩ else none

/-- `std::sort` of the clamped segments by start time. `std::sort` with
the strict comparator `a.s < b.s` yields some permutation that is
nondecreasing in `s`; we model it with the (deterministic) stable merge
sort by `≤` on starts, which is such a permutation. -/
def sortSegs (segs : List Slot) : List Slot :=
  segs.mergeSort fun a b => decide (a.start ≤ b.start)

/-- The merge loop of `SuperAI::freeWindows` with the current trailing
merged segment held in an accumulator (`merged.back()` of the C++,
which is mutated in place): a segment starts a new merged run iff its
start is strictly past the trailing end, else it extends the trailing
end to the max. -/
def mergeInto : Slot → List Slot → List Slot
  | cur, [] => [cur]
  | cur, s :: rest =>
    if cur.stop < s.start then cur :: mergeInto s rest
    else mergeInto ⟨cur.start, max cur.stop s.stop⟩ rest

/-- Merge overlapping/adjacent sorted segments (`merged` of the C++). -/
def mergeSegs : List Slot → List Slot
  | [] => []
  | s :: rest => mergeInto s rest

/-- Inversion walk of `SuperAI::freeWindows`: emit the gap before each
merged busy segment (and the tail gap to `dayEnd`) whenever it is
nonempty and at least `minBlockMin` minutes long; the cursor advances
to `max cur m.e`. -/
def invertSegs (minBlockMin : Nat) (dayEnd : Int) : Int → List Slot → List Slot
  | cur, [] =>
    if cur < dayEnd ∧ minBlockMin ≤ minutesBetween cur dayEnd then [⟨cur, dayEnd⟩]
    else []
  | cur, m :: rest =>
    (if cur < m.start ∧ minBlockMin ≤ minutesBetween cur m.start then [⟨cur, m.start⟩]
     else []) ++ invertSegs minBlockMin dayEnd (max cur m.stop) rest

/-- `SuperAI::freeWindows day busy minBlockMin`: free slots of the
canonical day window `[06:00, 22:00]` after removing the busy events. -/
def freeWindows (day : Int) (busy : List Event) (minBlockMin : Nat) : List Slot :=
  invertSegs minBlockMin (dayEndOf day) (dayStartOf day)
    (mergeSegs (sortSegs (clampSegs day busy)))

/-- `std::clamp v lo hi` for `lo ≤ hi`. -/
def clampQ (v lo hi : ℚ) : ℚ := max lo (min v hi)

/-- `SuperAI::slotScore` over exact rationals. `now` is the value
returned by `QDateTime::currentDateTime()` during the call. `minsLeft`
uses C truncated integer division (`Int.tdiv`), as in
`int(secsTo(deadline)/60)`. -/
def slotScore (now : Int) (w : Slot) (t : Task) : ℚ :=
  let durMin := minutesBetween w.start w.stop
  if durMin < 15 then -1000000000
  else
    let h := hourOf w.start
    let circ : ℚ :=
      (if t.mustMorning then (if 7 ≤ h ∧ h ≤ 12 then 1 else -0.3) else 0) +
      (if t.mustAfternoon then (if 13 ≤ h ∧ h ≤ 17 then 1 else -0.3) else 0)
    let urgency : ℚ :=
      match t.deadline with
      | none => 0
      | some d => clampQ (1 - ((Int.tdiv (d - now) 60 : Int) : ℚ) / (60 * 24 * 7)) 0 1
    let early : ℚ := 1 / max 1 (((w.start - now : Int) : ℚ) / 3600)
    let len : ℚ := min 1 ((durMin : ℚ) / 120)
    let pr : ℚ := ((t.priority : ℚ) - 1) / 4
    1.8 * pr + 1.4 * urgency + 0.8 * circ + 0.5 * len + 0.2 * early

/-- The habit scoring expression of `SuperAI::scheduleHabits` for one
window: mild length preference, anchor bias, priority. The three
anchor branches of the C++ are summed (at most one can fire, the
anchor being a single string). -/
def habitScore (w : Slot) (h : Habit) : ℚ :=
  let startH := hourOf w.start
  let base : ℚ := 0.2 * ((minutesBetween w.start w.stop : ℚ) / 60)
  let anchorBias : ℚ :=
    (if h.anchor = "morning" then (if startH ≤ 11 then 1 else -0.2) else 0) +
    (if h.anchor = "after-lunch" then (if 12 ≤ startH ∧ startH ≤ 15 then 1 else -0.2) else 0) +
    (if h.anchor = "evening" then (if 17 ≤ startH then 1 else -0.2) else 0)
  base + anchorBias + 0.5 * (((h.priority : ℚ) - 1) / 4)

/-- The best-index scan shared by the carve loop and the habit placer:
walk the list left to right with a current best index and best score
(initially none / `-1e9`), skipping ineligible entries, replacing the
best only on strictly greater score. -/
def bestIdxGo (score : α → ℚ) (elig : α → Bool) : List α → Nat → Option Nat → ℚ → Option Nat
  | [], _, best, _ => best
  | x :: xs, i, best, bestSc =>
    if elig x ∧ bestSc < score x then bestIdxGo score elig xs (i + 1) (some i) (score x)
    else bestIdxGo score elig xs (i + 1) best bestSc

/-- Entry point of the best-index scan (`bestIdx = -1`, `bestScore
= -1e9` of the C++; `none` models `-1`). -/
def bestIdx (score : α → ℚ) (elig : α → Bool) (l : List α) : Option Nat :=
  bestIdxGo score elig l 0 none (-1000000000)

/-- Eligibility test of the carve loop's scan:
`minutesBetween(w.start, w.end) < 15 → continue`. -/
def eligSlot (w : Slot) : Bool := decide (15 ≤ minutesBetween w.start w.stop)

/-- Total seconds of the window pool (termination measure of the carve
loop: each iteration consumes at least the 600-second trailing buffer
from the chosen fragment). -/
def poolSpan (pool : List Slot) : Nat := (pool.map fun w => (w.stop - w.start).toNat).sum

/-- The carve loop of `SuperAI::scheduleTasksIntoWindows` (the local
lambda `carve`), with an explicit fuel bounding the iteration count.
Returns the final fragment pool and the emitted blocks in order
(task chunk, 5-minute pre-buffer, 10-minute post-buffer per
iteration). -/
def carveF (now : Int) (t : Task) : Nat → Nat → List Slot → List Slot × List Event
  | 0, _, pool => (pool, [])
  | fuel + 1, needMin, pool =>
    if needMin = 0 then (pool, [])
    else
      match bestIdx (fun w => slotScore now w t) eligSlot pool with
      | none => (pool, [])
      | some i =>
        match pool[i]? with
        | none => (pool, [])
        | some chosen =>
          let availMin := minutesBetween chosen.start chosen.stop
          let chunk := min t.maxChunkMin (min needMin availMin)
          let s := chosen.start
          let e := s + chunk * 60
          let sBuf := s - 5 * 60
          let eBuf := e + 10 * 60
          let blocks : List Event :=
            [mkEvent ("🔵 " ++ t.title) s e kTaskBlue,
             mkEvent "Buffer" sBuf s kBufferGray,
             mkEvent "Buffer" e eBuf kBufferGray]
          let pool2 := if chosen.stop ≤ eBuf then pool.eraseIdx i else pool.set i ⟨eBuf, chosen.stop⟩
          if t.splitOK then
            let r := carveF now t fuel (needMin - chunk) pool2
            (r.1, blocks ++ r.2)
          else (pool2, blocks)

/-- The carve loop at its canonical (always sufficient) fuel: every
iteration removes at least 600 seconds from the pool span, so the
recursion depth is at most `poolSpan pool / 600 + 1`. -/
def carve (now : Int) (t : Task) (needMin : Nat) (pool : List Slot) : List Slot × List Event :=
  carveF now t (poolSpan pool / 600 + 1) needMin pool

/-- The task comparator handed to `std::sort` in
`SuperAI::scheduleTasksIntoWindows`: priority descending; among equal
priorities, tasks with valid deadlines by deadline ascending, a valid
deadline before an invalid one; when neither deadline is valid,
estimate descending. (Note: when both deadlines are valid and equal,
the comparator returns `false` both ways — the estimate is not
consulted.) -/
def cmpTasks (a b : Task) : Bool :=
  if a.priority ≠ b.priority then decide (b.priority < a.priority)
  else match a.deadline, b.deadline with
    | some da, some db => decide (da < db)
    | some _, none => true
    | none, some _ => false
    | none, none => decide (b.estimateMin < a.estimateMin)

/-- The non-strict order induced by the comparator: `a` may precede `b`
in a `std::sort` result iff `b` is not strictly before `a`. -/
def taskLE (a b : Task) : Bool := ! cmpTasks b a

/-- The task ordering pass of `SuperAI::scheduleTasksIntoWindows`:
`std::sort` with a strict weak comparator returns some permutation with
no inversion (`∀ i < j, ¬ cmp l[j] l[i]`); we model it with the
(deterministic) stable merge sort by `taskLE`, which is such a
permutation. -/
def sortTasks (tasks : List Task) : List Task := tasks.mergeSort taskLE

/-- The per-task placement loop of `SuperAI::scheduleTasksIntoWindows`:
the fragment pool is threaded through the tasks (the C++ closure
mutates `pool` across tasks), each task carving
`max 15 t.estimateMin` minutes best-effort. -/
def goTasks (now : Int) : List Task → List Slot → List Slot × List Event
  | [], pool => (pool, [])
  | t :: ts, pool =>
    let need := max 15 t.estimateMin
    let r1 := carve now t need pool
    let r2 := goTasks now ts r1.1
    (r2.1, r1.2 ++ r2.2)

/-- `SuperAI::scheduleTasksIntoWindows` (the unused `day` parameter of
the C++ is dropped). -/
def scheduleTasksIntoWindows (now : Int) (windows : List Slot) (tasks : List Task) : List Event :=
  if tasks.isEmpty ∨ windows.isEmpty then []
  else (goTasks now (sortTasks tasks) windows).2

/-- `SuperAI::scheduleHabits` (the unused `day` parameter is dropped):
one best-scoring window per habit; the block starts at the chosen
window's start and runs for the habit's full target duration. -/
def scheduleHabits (windows : List Slot) (habits : List Habit) : List Event :=
  habits.filterMap fun h =>
    match bestIdx (fun w => habitScore w h) (fun _ => true) windows with
    | none => none
    | some i =>
      match windows[i]? with
      | none => none
      | some w =>
        some (mkEvent ("🟢 " ++ h.title) w.start (w.start + h.targetMinPerDay * 60) kHabitGreen)

/-- `SuperAI::planDay`. `poolTasks`/`poolHabits` model the member
pools `m_tasks`/`m_habits` used when the caller-supplied lists are
empty; `now` is the (held fixed) current time; the emitted summary
string and signals are presentation only and omitted. -/
def planDay (now day : Int) (existing : List Event)
    (tasks : List Task) (habits : List Habit)
    (poolTasks : List Task) (poolHabits : List Habit) : List Event :=
  let freeSlots := freeWindows day existing 15
  let plannedTasks :=
    scheduleTasksIntoWindows now freeSlots (if tasks.isEmpty then poolTasks else tasks)
  let busy := existing ++ plannedTasks
  let freeAfterTasks := freeWindows day busy 15
  let plannedHabits :=
    scheduleHabits freeAfterTasks (if habits.isEmpty then poolHabits else habits)
  plannedTasks ++ plannedHabits

/-- Two blocks overlap when they share a positive amount of time. -/
def blocksOverlap (a b : Event) : Prop :=
  max a.startTime b.startTime < min a.endTime b.endTime

instance (a b : Event) : Decidable (blocksOverlap a b) := by
  unfold blocksOverlap; exact inferInstance

/-- Two slots overlap when they share a positive amount of time. -/
def slotsOverlap (a b : Slot) : Prop :=
  max a.start b.start < min a.stop b.stop

instance (a b : Slot) : Decidable (slotsOverlap a b) := by
  unfold slotsOverlap; exact inferInstance

/-- A slot overlaps an event when they share a positive amount of time. -/
def slotMeetsEvent (w : Slot) (e : Event) : Prop :=
  max w.start e.startTime < min w.stop e.endTime

instance (w : Slot) (e : Event) : Decidable (slotMeetsEvent w e) := by
  unfold slotMeetsEvent; exact inferInstance

/-- A time point lies in some slot of the list. -/
def pointInSlots (x : Int) (l : List Slot) : Prop := ∃ w ∈ l, w.start ≤ x ∧ x < w.stop

instance (x : Int) (l : List Slot) : Decidable (pointInSlots x l) := by
  unfold pointInSlots; exact inferInstance

/-! ### The best-index scan -/

/-- Invariant carried by the best-index scan: every eligible element at
a position strictly before `i` scores at most `bestSc`, and the current
best (when present) is an eligible earlier position whose score equals
`bestSc` (`bestSc` is the `-1e9` seed while no best exists). -/
def BestInv (score : α → ℚ) (elig : α → Bool) (l : List α) (i : Nat)
    (best : Option Nat) (bestSc : ℚ) : Prop :=
  (∀ j, j < i → ∀ hj : j < l.length, elig l[j] → score l[j] ≤ bestSc) ∧
  (match best with
   | none => bestSc = -1000000000
   | some b => b < i ∧ ∃ hb : b < l.length, elig l[b] ∧ bestSc = score l[b])

theorem bestIdxGo_spec (score : α → ℚ) (elig : α → Bool) (l : List α) :
    ∀ (xs : List α) (i : Nat) (best : Option Nat) (bestSc : ℚ),
      xs = l.drop i → BestInv score elig l i best bestSc →
      (bestIdxGo score elig xs i best bestSc = none →
        ∀ j, ∀ hj : j < l.length, elig l[j] → score l[j] ≤ -1000000000) ∧
      (∀ b, bestIdxGo score elig xs i best bestSc = some b →
        ∃ hb : b < l.length, elig l[b] = true ∧
          ∀ j, ∀ hj : j < l.length, elig l[j] → score l[j] ≤ score l[b]) := by
  intro xs
  induction xs with
  | nil =>
    intro i best bestSc hxs hinv
    have hlen : l.length ≤ i := by
      by_contra hcon
      push_neg at hcon
      have hdc := List.drop_eq_getElem_cons hcon
      rw [← hxs] at hdc
      exact List.noConfusion hdc
    constructor
    · intro hres j hj he
      have hji : j < i := lt_of_lt_of_le hj hlen
      have h1 := hinv.1 j hji hj he
      have h2 := hinv.2
      rw [show bestIdxGo score elig [] i best bestSc = best from rfl] at hres
      rw [hres] at h2
      simp only at h2
      rwa [h2] at h1
    · intro b hres
      have h2 := hinv.2
      rw [show bestIdxGo score elig [] i best bestSc = best from rfl] at hres
      rw [hres] at h2
      obtain ⟨hbi, hb, he, hsc⟩ := h2
      refine ⟨hb, he, ?_⟩
      intro j hj hje
      have hji : j < i := lt_of_lt_of_le hj hlen
      have h1 := hinv.1 j hji hj hje
      rwa [hsc] at h1
  | cons x xs ih =>
    intro i best bestSc hxs hinv
    have hil : i < l.length := by
      by_contra hcon
      push_neg at hcon
      rw [List.drop_eq_nil_of_le hcon] at hxs
      exact List.noConfusion hxs
    have hpair := List.drop_eq_getElem_cons hil
    rw [← hxs] at hpair
    injection hpair with hx hxs2
    show (bestIdxGo score elig (x :: xs) i best bestSc = none → _) ∧ _
    rw [show bestIdxGo score elig (x :: xs) i best bestSc =
        if elig x ∧ bestSc < score x then bestIdxGo score elig xs (i + 1) (some i) (score x)
        else bestIdxGo score elig xs (i + 1) best bestSc from rfl]
    by_cases hc : elig x ∧ bestSc < score x
    · rw [if_pos hc]
      refine ih (i + 1) (some i) (score x) hxs2 ?_
      constructor
      · intro j hj hjl hje
        rcases Nat.lt_succ_iff_lt_or_eq.mp hj with hj2 | hj2
        · exact le_of_lt (lt_of_le_of_lt (hinv.1 j hj2 hjl hje) (hx ▸ hc.2))
        · subst hj2
          rw [hx]
      · exact ⟨Nat.lt_succ_self i, hil, by rw [← hx]; exact ⟨hc.1, rfl⟩⟩
    · rw [if_neg hc]
      refine ih (i + 1) best bestSc hxs2 ?_
      constructor
      · intro j hj hjl hje
        rcases Nat.lt_succ_iff_lt_or_eq.mp hj with hj2 | hj2
        · exact hinv.1 j hj2 hjl hje
        · subst hj2
          have hnlt : ¬ bestSc < score l[j] := by
            rw [← hx]
            intro hlt
            have hex : elig x := by rw [hx]; exact hje
            exact hc ⟨hex, hlt⟩
          exact le_of_not_lt hnlt
      · rcases hbest : best with _ | b
        · have h2 := hinv.2
          rw [hbest] at h2
          exact h2
        · have h2 := hinv.2
          rw [hbest] at h2
          exact ⟨Nat.lt_succ_of_lt h2.1, h2.2⟩

theorem bestIdx_some (score : α → ℚ) (elig : α → Bool) (l : List α) (b : Nat)
    (h : bestIdx score elig l = some b) :
    ∃ hb : b < l.length, elig l[b] = true ∧
      ∀ j, ∀ hj : j < l.length, elig l[j] → score l[j] ≤ score l[b] := by
  have hs := bestIdxGo_spec score elig l l 0 none (-1000000000) (by simp)
    ⟨fun j hj _ _ => absurd hj (Nat.not_lt_zero j), rfl⟩
  exact hs.2 b h

theorem bestIdx_none (score : α → ℚ) (elig : α → Bool) (l : List α)
    (h : bestIdx score elig l = none) :
    ∀ j, ∀ hj : j < l.length, elig l[j] → score l[j] ≤ -1000000000 := by
  have hs := bestIdxGo_spec score elig l l 0 none (-1000000000) (by simp)
    ⟨fun j hj _ _ => absurd hj (Nat.not_lt_zero j), rfl⟩
  exact hs.1 h

theorem bestIdx_isSome (score : α → ℚ) (elig : α → Bool) (l : List α)
    (h : ∃ j, ∃ hj : j < l.length, elig l[j] ∧ -1000000000 < score l[j]) :
    ∃ b, bestIdx score elig l = some b := by
  rcases hres : bestIdx score elig l with _ | b
  · obtain ⟨j, hj, he, hsc⟩ := h
    exact absurd (bestIdx_none score elig l hres j hj he) (not_le.mpr hsc)
  · exact ⟨b, rfl⟩

theorem bestIdxGo_of_inelig (score : α → ℚ) (elig : α → Bool) :
    ∀ (xs : List α) (i : Nat) (best : Option Nat) (bestSc : ℚ),
      (∀ x ∈ xs, elig x = false) → bestIdxGo score elig xs i best bestSc = best := by
  intro xs
  induction xs with
  | nil => intro i best bestSc _; rfl
  | cons x xs ih =>
    intro i best bestSc h
    have hx : elig x = false := h x (List.mem_cons_self x xs)
    show (if elig x ∧ bestSc < score x then _ else _) = best
    rw [if_neg (by rw [hx]; exact fun hcon => Bool.false_ne_true hcon.1)]
    exact ih (i + 1) best bestSc fun y hy => h y (List.mem_cons_of_mem x hy)

theorem bestIdx_of_inelig (score : α → ℚ) (elig : α → Bool) (l : List α)
    (h : ∀ x ∈ l, elig x = false) : bestIdx score elig l = none :=
  bestIdxGo_of_inelig score elig l 0 none (-1000000000) h

/-! ### Claim C3: the placement scorer formula -/

/-- The scoring formula exactly as the specification words it: a large
negative sentinel for windows shorter than 15 minutes, otherwise the
weighted sum of priority (weight 1.8, normalized `(priority-1)/4`),
urgency (weight 1.4, the clamp to `[0,1]` of
`1 - minutesLeftToDeadline/(7*24*60)`, 0 with no deadline), circadian
bias (weight 0.8, +1.0 per set flag whose band — morning hours 07 to
12, afternoon hours 13 to 17 — contains the window's start hour, -0.3
per set flag whose band does not, the two terms summed), length
preference (weight 0.5, `min 1 (durationMinutes/120)`) and earliness
(weight 0.2, `1/max 1 hoursFromNowToWindowStart`). -/
def slotScoreSpec (now : Int) (w : Slot) (t : Task) : ℚ :=
  if minutesBetween w.start w.stop < 15 then -1000000000
  else
    let startHour := hourOf w.start
    let priorityTerm : ℚ := ((t.priority : ℚ) - 1) / 4
    let urgencyTerm : ℚ :=
      match t.deadline with
      | none => 0
      | some d => max 0 (min (1 - ((Int.tdiv (d - now) 60 : Int) : ℚ) / (7 * 24 * 60)) 1)
    let morningBand : Prop := 7 ≤ startHour ∧ startHour ≤ 12
    let afternoonBand : Prop := 13 ≤ startHour ∧ startHour ≤ 17
    let circadianTerm : ℚ :=
      (if t.mustMorning then (if morningBand then 1 else -(3/10)) else 0) +
      (if t.mustAfternoon then (if afternoonBand then 1 else -(3/10)) else 0)
    let lengthTerm : ℚ := min 1 ((minutesBetween w.start w.stop : ℚ) / 120)
    let earlinessTerm : ℚ := 1 / max 1 (((w.start - now : Int) : ℚ) / 3600)
    9/5 * priorityTerm + 7/5 * urgencyTerm + 4/5 * circadianTerm
      + 1/2 * lengthTerm + 1/5 * earlinessTerm

/-- **C3.** `slotScore` returns the `-1e9` sentinel for windows shorter
than 15 minutes and otherwise exactly the weighted sum stated by the
specification: the code's formula coincides with the spec's formula at
every input. -/
theorem C3_slotScore_formula (now : Int) (w : Slot) (t : Task) :
    slotScore now w t = slotScoreSpec now w t := by
  unfold slotScore slotScoreSpec clampQ
  by_cases hd : minutesBetween w.start w.stop < 15
  · rw [if_pos hd, if_pos hd]
  · rw [if_neg hd, if_neg hd]
    simp only
    cases t.deadline with
    | none => norm_num
    | some d => norm_num

/-! ### Claim C4: the task processing order -/

/-- The ordering the claim describes: priority descending, then (among
equal priorities) deadline ascending with deadline-less tasks last,
then (among all remaining ties — including equal valid deadlines)
estimated effort descending. -/
def claimLE (a b : Task) : Prop :=
  b.priority < a.priority ∨
  (a.priority = b.priority ∧
    (match a.deadline, b.deadline with
     | some da, some db => da < db ∨ (da = db ∧ b.estimateMin ≤ a.estimateMin)
     | some _, none => True
     | none, some _ => False
     | none, none => b.estimateMin ≤ a.estimateMin))

/-- The ordering the comparator actually implements: priority
descending, then valid deadlines (ascending) before missing ones, and
estimate descending only when neither task has a deadline; two tasks
with equal priorities and equal valid deadlines are mutually
unordered (their estimates are never compared). -/
def actualLE (a b : Task) : Prop :=
  b.priority < a.priority ∨
  (a.priority = b.priority ∧
    (match a.deadline, b.deadline with
     | some da, some db => da ≤ db
     | some _, none => True
     | none, some _ => False
     | none, none => b.estimateMin ≤ a.estimateMin))

theorem taskLE_iff (a b : Task) : taskLE a b = true ↔ actualLE a b := by
  unfold taskLE cmpTasks actualLE
  by_cases hp : b.priority = a.priority
  · rw [if_neg (by simp [hp])]
    rcases ha : a.deadline with _ | da <;> rcases hb : b.deadline with _ | db <;>
      simp [hp]
  · rw [if_pos hp]
    rcases ha : a.deadline with _ | da <;> rcases hb : b.deadline with _ | db <;>
      simp only [Bool.not_eq_true', decide_eq_false_iff_not, not_lt] <;>
      omega

theorem taskLE_trans (a b c : Task) (hab : taskLE a b = true) (hbc : taskLE b c = true) :
    taskLE a c = true := by
  rw [taskLE_iff] at hab hbc ⊢
  unfold actualLE at hab hbc ⊢
  rcases ha : a.deadline with _ | da <;> rcases hb : b.deadline with _ | db <;>
    rcases hc : c.deadline with _ | dc <;>
      simp only [ha, hb, hc] at hab hbc ⊢ <;>
        rcases hab with hab | hab <;> rcases hbc with hbc | hbc <;>
          (try simp_all) <;> omega

theorem taskLE_total (a b : Task) : (taskLE a b || taskLE b a) = true := by
  rw [Bool.or_eq_true, taskLE_iff, taskLE_iff]
  unfold actualLE
  rcases ha : a.deadline with _ | da <;> rcases hb : b.deadline with _ | db <;>
    simp only [ha, hb] <;> (try simp) <;> omega

/-- Concrete refutation input: two tasks with equal priority, equal
valid deadlines and different estimates. -/
def taskCexSmall : Task := ⟨"", "A", 10, 3, some 0, false, false, true, true, 120, ""⟩

/-- Concrete refutation input: the larger-estimate twin of
`taskCexSmall`. -/
def taskCexLarge : Task := ⟨"", "B", 50, 3, some 0, false, false, true, true, 120, ""⟩

/-- **C4, counterexample.** The claimed key order would put the
estimate-50 task before the estimate-10 task (equal priority, equal
valid deadline, estimate descending), but the comparator never reaches
the estimate tiebreak when both deadlines are valid: the sort leaves
the small-estimate task first, so the processing order is not sorted
by the claimed keys. -/
theorem C4_counterexample :
    ¬ List.Pairwise claimLE (sortTasks [taskCexSmall, taskCexLarge]) := by
  have hsort : sortTasks [taskCexSmall, taskCexLarge] = [taskCexSmall, taskCexLarge] := by
    with_unfolding_all rfl
  rw [hsort]
  intro hpair
  rcases hpair with _ | ⟨hrel, _⟩
  have hc := hrel taskCexLarge (List.mem_cons_self _ _)
  unfold claimLE taskCexSmall taskCexLarge at hc
  simp at hc

/-- **C4, amended.** `scheduleTasksIntoWindows` processes the tasks in
a permutation of the input that is sorted by: priority descending;
among equal priorities, tasks with a valid deadline (in ascending
deadline order) before tasks without one; among tasks with no
deadline, estimated effort descending. Tasks with equal priority and
equal valid deadlines are mutually unordered: the estimate tiebreak
applies only when neither task has a deadline. -/
theorem C4_amended_sort_order (ts : List Task) :
    (sortTasks ts).Perm ts ∧ List.Pairwise actualLE (sortTasks ts) := by
  constructor
  · exact List.mergeSort_perm ts taskLE
  · have hs := List.sorted_mergeSort taskLE_trans taskLE_total ts
    exact hs.imp fun h => (taskLE_iff _ _).mp h

/-! ### Claim C6: the habit placer -/

theorem habitScore_gt_sentinel (w : Slot) (h : Habit) :
    -1000000000 < habitScore w h := by
  have hb : (0:ℚ) ≤ (minutesBetween w.start w.stop : ℚ) / 60 := by positivity
  have hp : (0:ℚ) ≤ (h.priority : ℚ) := Nat.cast_nonneg _
  unfold habitScore
  dsimp only
  split_ifs <;> linarith

theorem scheduleHabits_nil_windows (hs : List Habit) : scheduleHabits [] hs = [] := by
  induction hs with
  | nil => rfl
  | cons h hs ih =>
    unfold scheduleHabits at ih ⊢
    rw [List.filterMap_cons]
    have hnone : bestIdx (fun w => habitScore w h) (fun _ => true) [] = none := rfl
    rw [hnone]
    exact ih

theorem scheduleHabits_step (ws : List Slot) (h : Habit) (hs : List Habit)
    (hne : ws ≠ []) :
    ∃ i, ∃ hi : i < ws.length,
      scheduleHabits ws (h :: hs) =
        mkEvent ("🟢 " ++ h.title) ws[i].start
          (ws[i].start + h.targetMinPerDay * 60) kHabitGreen :: scheduleHabits ws hs ∧
      ∀ w2 ∈ ws, habitScore w2 h ≤ habitScore ws[i] h := by
  have hlen : 0 < ws.length := List.length_pos.mpr hne
  obtain ⟨i, hbest⟩ := bestIdx_isSome (fun w => habitScore w h) (fun _ => true) ws
    ⟨0, hlen, rfl, habitScore_gt_sentinel _ h⟩
  obtain ⟨hi, _, hmax⟩ := bestIdx_some (fun w => habitScore w h) (fun _ => true) ws i hbest
  refine ⟨i, hi, ?_, ?_⟩
  · show List.filterMap _ (h :: hs) = _
    rw [List.filterMap_cons, hbest]
    dsimp only
    rw [List.getElem?_eq_getElem hi]
    rfl
  · intro w2 hw2
    obtain ⟨j, hj, hje⟩ := List.mem_iff_getElem.mp hw2
    rw [← hje]
    exact hmax j hj rfl

/-- **C6.** Per habit, `scheduleHabits` emits exactly one block when
the window list is non-empty and none otherwise; the k-th block is for
the k-th habit, starts at the start of a best-scoring window (no
window scores strictly higher), and runs for exactly the habit's full
target duration, with no clamping to the window's end. -/
theorem C6_habit_blocks (ws : List Slot) (hs : List Habit) :
    (ws = [] → scheduleHabits ws hs = []) ∧
    (ws ≠ [] →
      (scheduleHabits ws hs).length = hs.length ∧
      ∀ k, ∀ hk : k < hs.length, ∃ hk2 : k < (scheduleHabits ws hs).length, ∃ w ∈ ws,
        (scheduleHabits ws hs).get ⟨k, hk2⟩ =
          mkEvent ("🟢 " ++ (hs.get ⟨k, hk⟩).title) w.start
            (w.start + (hs.get ⟨k, hk⟩).targetMinPerDay * 60) kHabitGreen ∧
        ∀ w2 ∈ ws, habitScore w2 (hs.get ⟨k, hk⟩) ≤ habitScore w (hs.get ⟨k, hk⟩)) := by
  constructor
  · intro hws; subst hws; exact scheduleHabits_nil_windows hs
  · intro hne
    induction hs with
    | nil =>
      refine ⟨rfl, ?_⟩
      intro k hk
      exact absurd hk (Nat.not_lt_zero k)
    | cons h hs ih =>
      obtain ⟨i, hi, heq, hmax⟩ := scheduleHabits_step ws h hs hne
      rw [heq]
      refine ⟨by simpa using ih.1, ?_⟩
      intro k hk
      cases k with
      | zero =>
        refine ⟨by simp [ih.1], ws[i], List.getElem_mem hi, ?_, ?_⟩
        · rfl
        · exact hmax
      | succ k =>
        have hk2 : k < hs.length := Nat.lt_of_succ_lt_succ hk
        obtain ⟨hk3, w, hw, heq2, hmax2⟩ := ih.2 k hk2
        exact ⟨Nat.succ_lt_succ hk3, w, hw, heq2, hmax2⟩

/-- **C6, witness.** With one full-day window and one evening habit, a
single block is emitted. -/
theorem C6_habit_blocks_witness :
    (scheduleHabits [⟨21600, 79200⟩] [⟨"Read", 25, "evening", 3⟩]).length = 1 :=
  ((C6_habit_blocks [⟨21600, 79200⟩] [⟨"Read", 25, "evening", 3⟩]).2
    (by simp)).1

/-! ### The carve loop: fuel stability and basic structure -/

theorem span_ge_of_elig (w : Slot) (h : eligSlot w = true) :
    900 ≤ (w.stop - w.start).toNat := by
  unfold eligSlot at h
  rw [decide_eq_true_iff] at h
  unfold minutesBetween at h
  omega

theorem poolSpan_cons (w : Slot) (pool : List Slot) :
    poolSpan (w :: pool) = (w.stop - w.start).toNat + poolSpan pool := by
  unfold poolSpan
  rw [List.map_cons, List.sum_cons]

theorem poolSpan_set (pool : List Slot) :
    ∀ (i : Nat) (w : Slot), ∀ hi : i < pool.length,
      poolSpan (pool.set i w) + ((pool.get ⟨i, hi⟩).stop - (pool.get ⟨i, hi⟩).start).toNat =
        poolSpan pool + (w.stop - w.start).toNat := by
  induction pool with
  | nil => intro i w hi; exact absurd hi (Nat.not_lt_zero i)
  | cons x xs ih =>
    intro i w hi
    cases i with
    | zero =>
      rw [List.set_cons_zero, poolSpan_cons, poolSpan_cons]
      dsimp only [List.get]
      omega
    | succ i =>
      rw [List.set_cons_succ, poolSpan_cons, poolSpan_cons]
      have hi2 : i < xs.length := Nat.lt_of_succ_lt_succ hi
      have := ih i w hi2
      dsimp only [List.get]
      omega

theorem poolSpan_erase (pool : List Slot) :
    ∀ (i : Nat), ∀ hi : i < pool.length,
      poolSpan (pool.eraseIdx i) + ((pool.get ⟨i, hi⟩).stop - (pool.get ⟨i, hi⟩).start).toNat =
        poolSpan pool := by
  induction pool with
  | nil => intro i hi; exact absurd hi (Nat.not_lt_zero i)
  | cons x xs ih =>
    intro i hi
    cases i with
    | zero =>
      rw [List.eraseIdx_cons_zero, poolSpan_cons]
      dsimp only [List.get]
      omega
    | succ i =>
      rw [List.eraseIdx_cons_succ, poolSpan_cons, poolSpan_cons]
      have hi2 : i < xs.length := Nat.lt_of_succ_lt_succ hi
      have := ih i hi2
      dsimp only [List.get]
      omega

/-- One carve iteration removes at least 600 seconds (the 10-minute
trailing buffer) from the pool span. -/
theorem carve_step_decrease (now : Int) (t : Task) (need : Nat) (pool : List Slot)
    (i : Nat) (chosen : Slot)
    (hbest : bestIdx (fun w => slotScore now w t) eligSlot pool = some i)
    (hget : pool[i]? = some chosen) :
    poolSpan
        (if chosen.stop ≤ chosen.start +
            (min t.maxChunkMin (min need (minutesBetween chosen.start chosen.stop))) * 60 + 10 * 60
         then pool.eraseIdx i
         else pool.set i
           ⟨chosen.start + (min t.maxChunkMin (min need (minutesBetween chosen.start chosen.stop))) * 60 + 10 * 60,
            chosen.stop⟩) + 600 ≤ poolSpan pool := by
  obtain ⟨hi, helig, _⟩ := bestIdx_some _ _ pool i hbest
  have hch : chosen = pool.get ⟨i, hi⟩ := by
    rw [List.getElem?_eq_getElem hi] at hget
    exact (Option.some.injEq _ _ ▸ hget :).symm
  have hspan := span_ge_of_elig (pool.get ⟨i, hi⟩) (by
    have : pool.get ⟨i, hi⟩ = pool[i] := rfl
    rw [this]; exact helig)
  split_ifs with hcase
  · have := poolSpan_erase pool i hi
    rw [← hch] at this hspan
    omega
  · have := poolSpan_set pool i
      ⟨chosen.start + (min t.maxChunkMin (min need (minutesBetween chosen.start chosen.stop))) * 60 + 10 * 60,
       chosen.stop⟩ hi
    rw [← hch] at this hspan
    dsimp only at this
    omega

/-- The carve loop is fuel-stable: any fuel strictly dominating
`poolSpan pool / 600` produces the same result, so `carve`'s canonical
fuel models the unbounded C++ loop faithfully. -/
theorem carveF_fuel (now : Int) (t : Task) :
    ∀ f1 f2 need pool, poolSpan pool / 600 < f1 → poolSpan pool / 600 < f2 →
      carveF now t f1 need pool = carveF now t f2 need pool := by
  intro f1
  induction f1 using Nat.strong_induction_on with
  | _ f1 ih =>
    intro f2 need pool h1 h2
    cases f1 with
    | zero => omega
    | succ a =>
      cases f2 with
      | zero => omega
      | succ b =>
        show carveF now t (a + 1) need pool = carveF now t (b + 1) need pool
        by_cases hneed : need = 0
        · simp only [carveF, hneed, if_pos]
        · rcases hbest : bestIdx (fun w => slotScore now w t) eligSlot pool with _ | i
          · simp only [carveF, if_neg hneed, hbest]
          · rcases hget : pool[i]? with _ | chosen
            · simp only [carveF, if_neg hneed, hbest, hget]
            · have hdec := carve_step_decrease now t need pool i chosen hbest hget
              simp only [carveF, if_neg hneed, hbest, hget]
              by_cases hsplit : t.splitOK
              · rw [if_pos hsplit, if_pos hsplit]
                have hlt : poolSpan
                    (if chosen.stop ≤ chosen.start +
                        (min t.maxChunkMin (min need (minutesBetween chosen.start chosen.stop))) * 60 + 10 * 60
                     then pool.eraseIdx i
                     else pool.set i
                       ⟨chosen.start + (min t.maxChunkMin (min need (minutesBetween chosen.start chosen.stop))) * 60 + 10 * 60,
                        chosen.stop⟩) / 600 < poolSpan pool / 600 := by
                  omega
                rw [ih a (Nat.lt_succ_self a) b _ _ (by omega) (by omega)]
              · rw [if_neg hsplit, if_neg hsplit]

/-! ### Claim C8: best-effort abandonment -/

theorem carveF_no_usable (now : Int) (t : Task) (fuel need : Nat) (pool : List Slot)
    (h : ∀ w ∈ pool, minutesBetween w.start w.stop < 15) :
    carveF now t fuel need pool = (pool, []) := by
  have hbest : bestIdx (fun w => slotScore now w t) eligSlot pool = none := by
    refine bestIdx_of_inelig _ _ pool fun w hw => ?_
    unfold eligSlot
    rw [decide_eq_false_iff_not]
    exact not_le.mpr (h w hw)
  cases fuel with
  | zero => rfl
  | succ a =>
    by_cases hneed : need = 0
    · simp only [carveF, hneed, if_pos]
    · simp only [carveF, if_neg hneed, hbest]

/-- **C8.** The carve loop never signals an error: when no pool
fragment of at least 15 minutes remains it returns the pool unchanged
and places nothing (the remaining effort is silently abandoned), and
appending one more task to the processing list keeps every block
already placed for the earlier tasks, merely appending the best-effort
placement of the new task on the leftover pool. -/
theorem C8_best_effort (now : Int) :
    (∀ (t : Task) (need : Nat) (pool : List Slot),
      (∀ w ∈ pool, minutesBetween w.start w.stop < 15) →
      carve now t need pool = (pool, [])) ∧
    (∀ (ts : List Task) (t : Task) (pool : List Slot),
      (goTasks now (ts ++ [t]) pool).2 =
        (goTasks now ts pool).2 ++
          (carve now t (max 15 t.estimateMin) (goTasks now ts pool).1).2 ∧
      (goTasks now (ts ++ [t]) pool).1 =
        (carve now t (max 15 t.estimateMin) (goTasks now ts pool).1).1) := by
  constructor
  · intro t need pool h
    exact carveF_no_usable now t _ need pool h
  · intro ts
    induction ts with
    | nil =>
      intro t pool
      constructor <;> simp [goTasks]
    | cons t0 ts ih =>
      intro t pool
      have hstep2 : ∀ (ts2 : List Task) (pool2 : List Slot),
          (goTasks now (t0 :: ts2) pool2).2 =
            (carve now t0 (max 15 t0.estimateMin) pool2).2 ++
              (goTasks now ts2 (carve now t0 (max 15 t0.estimateMin) pool2).1).2 :=
        fun _ _ => rfl
      have hstep1 : ∀ (ts2 : List Task) (pool2 : List Slot),
          (goTasks now (t0 :: ts2) pool2).1 =
            (goTasks now ts2 (carve now t0 (max 15 t0.estimateMin) pool2).1).1 :=
        fun _ _ => rfl
      have hih := ih t (carve now t0 (max 15 t0.estimateMin) pool).1
      constructor
      · rw [show t0 :: ts ++ [t] = t0 :: (ts ++ [t]) from rfl,
          hstep2 (ts ++ [t]) pool, hstep2 ts pool, hstep1 ts pool,
          hih.1, List.append_assoc]
      · rw [show t0 :: ts ++ [t] = t0 :: (ts ++ [t]) from rfl,
          hstep1 (ts ++ [t]) pool, hstep1 ts pool, hih.2]

/-- **C8, witness.** A pool holding only a 5-minute fragment: nothing
is placed and the pool is returned untouched. -/
theorem C8_best_effort_witness :
    carve 0 ⟨"", "T", 30, 3, none, false, false, true, true, 120, ""⟩ 30 [⟨0, 300⟩] =
      ([⟨0, 300⟩], []) :=
  (C8_best_effort 0).1 _ 30 [⟨0, 300⟩] (by decide)

/-! ### Claim C5: chunk shape and buffer adjacency -/

theorem carveF_buffers (now : Int) (t : Task) :
    ∀ (fuel need : Nat) (pool : List Slot) (ev : Event),
      ev ∈ (carveF now t fuel need pool).2 → ev.color = kTaskBlue →
      (∃ b1 ∈ (carveF now t fuel need pool).2, b1.color = kBufferGray ∧
        b1.endTime = ev.startTime ∧ b1.startTime = ev.startTime - 5 * 60) ∧
      (∃ b2 ∈ (carveF now t fuel need pool).2, b2.color = kBufferGray ∧
        b2.startTime = ev.endTime ∧ b2.endTime = ev.endTime + 10 * 60) := by
  intro fuel
  induction fuel with
  | zero =>
    intro need pool ev hev
    exact absurd hev (by simp [carveF])
  | succ a ih =>
    intro need pool ev hev hblue
    by_cases hneed : need = 0
    · rw [show carveF now t (a + 1) need pool = (pool, []) from by
        simp only [carveF, hneed, if_pos]] at hev ⊢
      exact absurd hev (by simp)
    · rcases hbest : bestIdx (fun w => slotScore now w t) eligSlot pool with _ | i
      · rw [show carveF now t (a + 1) need pool = (pool, []) from by
          simp only [carveF, if_neg hneed, hbest]] at hev ⊢
        exact absurd hev (by simp)
      · rcases hget : pool[i]? with _ | chosen
        · rw [show carveF now t (a + 1) need pool = (pool, []) from by
            simp only [carveF, if_neg hneed, hbest, hget]] at hev ⊢
          exact absurd hev (by simp)
        · set chunk := min t.maxChunkMin (min need (minutesBetween chosen.start chosen.stop)) with hchunk
          set s := chosen.start
          set e := s + chunk * 60 with he
          set pool2 := if chosen.stop ≤ e + 10 * 60 then pool.eraseIdx i
            else pool.set i ⟨e + 10 * 60, chosen.stop⟩ with hpool2
          set blocks : List Event :=
            [mkEvent ("🔵 " ++ t.title) s e kTaskBlue,
             mkEvent "Buffer" (s - 5 * 60) s kBufferGray,
             mkEvent "Buffer" e (e + 10 * 60) kBufferGray] with hblocks
          have hunf : (carveF now t (a + 1) need pool).2 =
              blocks ++ (if t.splitOK then (carveF now t a (need - chunk) pool2).2 else []) := by
            simp only [carveF, if_neg hneed, hbest, hget]
            by_cases hsplit : t.splitOK
            · rw [if_pos hsplit, if_pos hsplit]
            · rw [if_neg hsplit, if_neg hsplit]
              rfl
          rw [hunf] at hev ⊢
          rw [List.mem_append] at hev
          rcases hev with hev | hev
          · -- the event is in the freshly emitted triple
            have hevc : ev = mkEvent ("🔵 " ++ t.title) s e kTaskBlue := by
              rw [hblocks] at hev
              simp only [List.mem_cons, List.not_mem_nil, or_false] at hev
              rcases hev with h | h | h
              · exact h
              · exact absurd (h ▸ hblue) (by intro hcon; exact Color.noConfusion hcon)
              · exact absurd (h ▸ hblue) (by intro hcon; exact Color.noConfusion hcon)
            constructor
            · refine ⟨mkEvent "Buffer" (s - 5 * 60) s kBufferGray, ?_, rfl, ?_, ?_⟩
              · rw [List.mem_append]; left; rw [hblocks]; simp
              · rw [hevc]; rfl
              · rw [hevc]; rfl
            · refine ⟨mkEvent "Buffer" e (e + 10 * 60) kBufferGray, ?_, rfl, ?_, ?_⟩
              · rw [List.mem_append]; left; rw [hblocks]; simp
              · rw [hevc]; rfl
              · rw [hevc]; rfl
          · -- the event comes from the recursive call
            by_cases hsplit : t.splitOK
            · rw [if_pos hsplit] at hev
              obtain ⟨⟨b1, hb1, hb1p⟩, ⟨b2, hb2, hb2p⟩⟩ := ih (need - chunk) pool2 ev hev hblue
              constructor
              · exact ⟨b1, by rw [List.mem_append]; right; rw [if_pos hsplit]; exact hb1, hb1p⟩
              · exact ⟨b2, by rw [List.mem_append]; right; rw [if_pos hsplit]; exact hb2, hb2p⟩
            · rw [if_neg hsplit] at hev
              exact absurd hev (List.not_mem_nil ev)

theorem goTasks_buffers (now : Int) :
    ∀ (ts : List Task) (pool : List Slot) (ev : Event),
      ev ∈ (goTasks now ts pool).2 → ev.color = kTaskBlue →
      (∃ b1 ∈ (goTasks now ts pool).2, b1.color = kBufferGray ∧
        b1.endTime = ev.startTime ∧ b1.startTime = ev.startTime - 5 * 60) ∧
      (∃ b2 ∈ (goTasks now ts pool).2, b2.color = kBufferGray ∧
        b2.startTime = ev.endTime ∧ b2.endTime = ev.endTime + 10 * 60) := by
  intro ts
  induction ts with
  | nil =>
    intro pool ev hev
    exact absurd hev (by simp [goTasks])
  | cons t ts ih =>
    intro pool ev hev hblue
    have hstep : (goTasks now (t :: ts) pool).2 =
        (carve now t (max 15 t.estimateMin) pool).2 ++
          (goTasks now ts (carve now t (max 15 t.estimateMin) pool).1).2 := rfl
    rw [hstep] at hev ⊢
    rw [List.mem_append] at hev
    rcases hev with hev | hev
    · obtain ⟨⟨b1, hb1, hb1p⟩, ⟨b2, hb2, hb2p⟩⟩ :=
        carveF_buffers now t _ _ pool ev hev hblue
      exact ⟨⟨b1, by rw [List.mem_append]; exact Or.inl hb1, hb1p⟩,
             ⟨b2, by rw [List.mem_append]; exact Or.inl hb2, hb2p⟩⟩
    · obtain ⟨⟨b1, hb1, hb1p⟩, ⟨b2, hb2, hb2p⟩⟩ := ih _ ev hev hblue
      exact ⟨⟨b1, by rw [List.mem_append]; exact Or.inr hb1, hb1p⟩,
             ⟨b2, by rw [List.mem_append]; exact Or.inr hb2, hb2p⟩⟩

/-- **C5.** Every task chunk (blue) block emitted by
`scheduleTasksIntoWindows` has, in the same output, a 5-minute buffer
ending exactly at the chunk's start and a 10-minute buffer starting
exactly at the chunk's end; and each carve iteration that fires emits
the chunk at the start of the chosen fragment with length exactly
`min maxChunkMin (min remainingEffort fragmentMinutes)` minutes,
followed by those two buffers. -/
theorem C5_chunk_buffer_adjacency :
    (∀ (now : Int) (ws : List Slot) (ts : List Task) (ev : Event),
      ev ∈ scheduleTasksIntoWindows now ws ts → ev.color = kTaskBlue →
      (∃ b1 ∈ scheduleTasksIntoWindows now ws ts, b1.color = kBufferGray ∧
        b1.endTime = ev.startTime ∧ b1.startTime = ev.startTime - 5 * 60) ∧
      (∃ b2 ∈ scheduleTasksIntoWindows now ws ts, b2.color = kBufferGray ∧
        b2.startTime = ev.endTime ∧ b2.endTime = ev.endTime + 10 * 60)) ∧
    (∀ (now : Int) (t : Task) (fuel need : Nat) (pool : List Slot) (i : Nat) (chosen : Slot),
      need ≠ 0 →
      bestIdx (fun w => slotScore now w t) eligSlot pool = some i →
      pool[i]? = some chosen →
      ∃ rest, (carveF now t (fuel + 1) need pool).2 =
        mkEvent ("🔵 " ++ t.title) chosen.start
          (chosen.start + (min t.maxChunkMin (min need (minutesBetween chosen.start chosen.stop))) * 60)
          kTaskBlue ::
        mkEvent "Buffer" (chosen.start - 5 * 60) chosen.start kBufferGray ::
        mkEvent "Buffer"
          (chosen.start + (min t.maxChunkMin (min need (minutesBetween chosen.start chosen.stop))) * 60)
          (chosen.start + (min t.maxChunkMin (min need (minutesBetween chosen.start chosen.stop))) * 60 + 10 * 60)
          kBufferGray :: rest) := by
  constructor
  · intro now ws ts ev hev hblue
    unfold scheduleTasksIntoWindows at hev ⊢
    by_cases hc : ts.isEmpty ∨ ws.isEmpty
    · rw [if_pos hc] at hev
      exact absurd hev (List.not_mem_nil ev)
    · rw [if_neg hc] at hev ⊢
      exact goTasks_buffers now (sortTasks ts) ws ev hev hblue
  · intro now t fuel need pool i chosen hneed hbest hget
    refine ⟨(if t.splitOK then (carveF now t fuel
      (need - min t.maxChunkMin (min need (minutesBetween chosen.start chosen.stop)))
      (if chosen.stop ≤ chosen.start +
          (min t.maxChunkMin (min need (minutesBetween chosen.start chosen.stop))) * 60 + 10 * 60
       then pool.eraseIdx i
       else pool.set i
         ⟨chosen.start + (min t.maxChunkMin (min need (minutesBetween chosen.start chosen.stop))) * 60 + 10 * 60,
          chosen.stop⟩)).2 else []), ?_⟩
    simp only [carveF, if_neg hneed, hbest, hget]
    by_cases hsplit : t.splitOK
    · rw [if_pos hsplit, if_pos hsplit]
      rfl
    · rw [if_neg hsplit, if_neg hsplit]

/-- A demonstration task: effort 30, chunk cap 15, splitting allowed. -/
def taskDemo : Task := ⟨"", "B", 30, 3, none, false, false, true, true, 15, ""⟩

/-- **C5, witness.** On a full-day window, the first 15-minute chunk of
`taskDemo` (placed at 06:00, i.e. `[21600, 22500)`) has a 5-minute
buffer ending at its start and a 10-minute buffer starting at its end
in the same output. -/
theorem C5_chunk_buffer_adjacency_witness :
    (∃ b1 ∈ scheduleTasksIntoWindows 21600 [⟨21600, 79200⟩] [taskDemo],
        b1.color = kBufferGray ∧ b1.endTime = (21600 : Int) ∧
        b1.startTime = (21600 : Int) - 5 * 60) ∧
    (∃ b2 ∈ scheduleTasksIntoWindows 21600 [⟨21600, 79200⟩] [taskDemo],
        b2.color = kBufferGray ∧ b2.startTime = (22500 : Int) ∧
        b2.endTime = (22500 : Int) + 10 * 60) :=
  C5_chunk_buffer_adjacency.1 21600 [⟨21600, 79200⟩] [taskDemo]
    (mkEvent ("🔵 " ++ "B") 21600 22500 kTaskBlue)
    (by with_unfolding_all exact List.mem_cons_self _ _) rfl

/-! ### Claim C2: the interval merger -/

/-- The merged busy set computed inside `freeWindows` (the `merged`
list of the C++). -/
def mergedBusy (day : Int) (busy : List Event) : List Slot :=
  mergeSegs (sortSegs (clampSegs day busy))

theorem freeWindows_eq (day : Int) (busy : List Event) (minB : Nat) :
    freeWindows day busy minB =
      invertSegs minB (dayEndOf day) (dayStartOf day) (mergedBusy day busy) := rfl

theorem clampSegs_mem (day : Int) (busy : List Event) (m : Slot)
    (hm : m ∈ clampSegs day busy) :
    dayStartOf day ≤ m.start ∧ m.start < m.stop ∧ m.stop ≤ dayEndOf day := by
  unfold clampSegs at hm
  rw [List.mem_filterMap] at hm
  obtain ⟨e, _, hfe⟩ := hm
  by_cases hdate : qdate e.startTime > day ∨ qdate e.endTime < day
  · rw [if_pos hdate] at hfe
    exact absurd hfe (by simp)
  · rw [if_neg hdate] at hfe
    dsimp only at hfe
    by_cases hcl : max (dayStartOf day) e.startTime < min (dayEndOf day) e.endTime
    · rw [if_pos hcl] at hfe
      obtain rfl := (Option.some.injEq _ _ ▸ hfe :)
      dsimp only
      omega
    · rw [if_neg hcl] at hfe
      exact absurd hfe (by simp)

/-- Every in-day point of a busy event lands in some clamped segment:
the date filter only discards events entirely outside the day window. -/
theorem clampSegs_covers (day : Int) (busy : List Event) (e : Event) (he : e ∈ busy)
    (x : Int) (hx1 : e.startTime ≤ x) (hx2 : x < e.endTime)
    (hx3 : dayStartOf day ≤ x) (hx4 : x < dayEndOf day) :
    pointInSlots x (clampSegs day busy) := by
  have hdate : ¬ (qdate e.startTime > day ∨ qdate e.endTime < day) := by
    intro hcon
    rcases hcon with hcon | hcon
    · -- the event starts after the day: its start exceeds the day end
      have : (day + 1) * 86400 ≤ e.startTime :=
        (Int.le_ediv_iff_mul_le (by norm_num)).mp hcon
      unfold dayStartOf dayEndOf at *
      omega
    · -- the event ends before the day: its end precedes the day start
      have : ¬ day * 86400 ≤ e.endTime := by
        intro hle
        have := (Int.le_ediv_iff_mul_le (show (0:Int) < 86400 by norm_num)).mpr hle
        unfold qdate at hcon
        omega
      unfold dayStartOf dayEndOf at *
      omega
  refine ⟨⟨max (dayStartOf day) e.startTime, min (dayEndOf day) e.endTime⟩, ?_, ?_, ?_⟩
  · unfold clampSegs
    rw [List.mem_filterMap]
    refine ⟨e, he, ?_⟩
    rw [if_neg hdate]
    dsimp only
    rw [if_pos (by omega)]
  · dsimp only
    omega
  · dsimp only
    omega

theorem sortSegs_perm (l : List Slot) : (sortSegs l).Perm l :=
  List.mergeSort_perm l _

theorem sortSegs_sorted (l : List Slot) :
    List.Pairwise (fun a b : Slot => a.start ≤ b.start) (sortSegs l) := by
  have hs := @List.sorted_mergeSort Slot (fun a b : Slot => decide (a.start ≤ b.start))
    (fun a b c hab hbc => by
      rw [decide_eq_true_iff] at *
      omega)
    (fun a b => by
      rw [Bool.or_eq_true, decide_eq_true_iff, decide_eq_true_iff]
      omega)
    l
  exact hs.imp fun h => by rwa [decide_eq_true_iff] at h

/-- Sortedness by start time (the post-`std::sort` state). -/
def SlotsSortedStart (l : List Slot) : Prop :=
  List.Pairwise (fun a b : Slot => a.start ≤ b.start) l

/-- Strictly separated segments: consecutive ends strictly before the
next start (the shape of the merged busy set). -/
def SlotsChain (l : List Slot) : Prop :=
  List.Pairwise (fun a b : Slot => a.stop < b.start) l

/-- Every segment is nonempty. -/
def SlotsWF (l : List Slot) : Prop := ∀ m ∈ l, m.start < m.stop

/-- Every segment lies within `[lo, hi]`. -/
def SlotsWithin (lo hi : Int) (l : List Slot) : Prop :=
  ∀ m ∈ l, lo ≤ m.start ∧ m.stop ≤ hi

instance (l : List Slot) : Decidable (SlotsChain l) := by
  unfold SlotsChain; exact inferInstance

instance (l : List Slot) : Decidable (SlotsWF l) := by
  unfold SlotsWF; exact inferInstance

theorem pointInSlots_cons (x : Int) (w : Slot) (l : List Slot) :
    pointInSlots x (w :: l) ↔ (w.start ≤ x ∧ x < w.stop) ∨ pointInSlots x l := by
  unfold pointInSlots
  simp

theorem pointInSlots_nil (x : Int) : ¬ pointInSlots x [] := by
  unfold pointInSlots
  simp

theorem mergeInto_start_mono :
    ∀ (rest : List Slot) (cur : Slot), SlotsSortedStart (cur :: rest) →
      ∀ m ∈ mergeInto cur rest, cur.start ≤ m.start := by
  intro rest
  induction rest with
  | nil =>
    intro cur _ m hm
    rcases List.mem_cons.mp hm with hm | hm
    · subst hm; exact le_refl _
    · exact absurd hm (List.not_mem_nil m)
  | cons s rest ih =>
    intro cur hsort m hm
    rw [SlotsSortedStart, List.pairwise_cons] at hsort
    have hcs : cur.start ≤ s.start := hsort.1 s (List.mem_cons_self s rest)
    unfold mergeInto at hm
    by_cases hc : cur.stop < s.start
    · rw [if_pos hc] at hm
      rcases List.mem_cons.mp hm with hm | hm
      · subst hm; exact le_refl _
      · exact le_trans hcs (ih s hsort.2 m hm)
    · rw [if_neg hc] at hm
      have hsort2 : SlotsSortedStart (Slot.mk cur.start (max cur.stop s.stop) :: rest) := by
        rw [SlotsSortedStart, List.pairwise_cons]
        refine ⟨fun y hy => ?_, (List.pairwise_cons.mp hsort.2).2⟩
        exact hsort.1 y (List.mem_cons_of_mem s hy)
      exact ih ⟨cur.start, max cur.stop s.stop⟩ hsort2 m hm

theorem mergeInto_chain_wf :
    ∀ (rest : List Slot) (cur : Slot), SlotsSortedStart (cur :: rest) →
      cur.start < cur.stop → SlotsWF rest →
      SlotsChain (mergeInto cur rest) ∧ SlotsWF (mergeInto cur rest) := by
  intro rest
  induction rest with
  | nil =>
    intro cur _ hwf _
    constructor
    · exact List.pairwise_singleton _ _
    · intro m hm
      rcases List.mem_cons.mp hm with hm | hm
      · subst hm; exact hwf
      · exact absurd hm (List.not_mem_nil m)
  | cons s rest ih =>
    intro cur hsort hcur hwf
    rw [SlotsSortedStart, List.pairwise_cons] at hsort
    have hswf : s.start < s.stop := hwf s (List.mem_cons_self s rest)
    have hwfr : SlotsWF rest := fun m hm => hwf m (List.mem_cons_of_mem s hm)
    unfold mergeInto
    by_cases hc : cur.stop < s.start
    · rw [if_pos hc]
      obtain ⟨hchain, hwf2⟩ := ih s hsort.2 hswf hwfr
      constructor
      · rw [SlotsChain, List.pairwise_cons]
        refine ⟨fun m hm => ?_, hchain⟩
        exact lt_of_lt_of_le hc (mergeInto_start_mono rest s hsort.2 m hm)
      · intro m hm
        rcases List.mem_cons.mp hm with hm | hm
        · subst hm; exact hcur
        · exact hwf2 m hm
    · rw [if_neg hc]
      have hsort2 : SlotsSortedStart (Slot.mk cur.start (max cur.stop s.stop) :: rest) := by
        rw [SlotsSortedStart, List.pairwise_cons]
        refine ⟨fun y hy => ?_, (List.pairwise_cons.mp hsort.2).2⟩
        exact hsort.1 y (List.mem_cons_of_mem s hy)
      exact ih ⟨cur.start, max cur.stop s.stop⟩ hsort2 (by dsimp only; omega) hwfr

theorem mergeInto_union :
    ∀ (rest : List Slot) (cur : Slot), SlotsSortedStart (cur :: rest) → ∀ x : Int,
      (pointInSlots x (mergeInto cur rest) ↔
        (cur.start ≤ x ∧ x < cur.stop) ∨ pointInSlots x rest) := by
  intro rest
  induction rest with
  | nil =>
    intro cur _ x
    unfold mergeInto
    rw [pointInSlots_cons]
  | cons s rest ih =>
    intro cur hsort x
    rw [SlotsSortedStart, List.pairwise_cons] at hsort
    have hcs : cur.start ≤ s.start := hsort.1 s (List.mem_cons_self s rest)
    unfold mergeInto
    by_cases hc : cur.stop < s.start
    · rw [if_pos hc, pointInSlots_cons, ih s hsort.2 x, pointInSlots_cons]
    · rw [if_neg hc]
      have hsort2 : SlotsSortedStart (Slot.mk cur.start (max cur.stop s.stop) :: rest) := by
        rw [SlotsSortedStart, List.pairwise_cons]
        refine ⟨fun y hy => ?_, (List.pairwise_cons.mp hsort.2).2⟩
        exact hsort.1 y (List.mem_cons_of_mem s hy)
      rw [ih ⟨cur.start, max cur.stop s.stop⟩ hsort2 x, pointInSlots_cons]
      have key : ((Slot.mk cur.start (max cur.stop s.stop)).start ≤ x ∧
          x < (Slot.mk cur.start (max cur.stop s.stop)).stop) ↔
          ((cur.start ≤ x ∧ x < cur.stop) ∨ (s.start ≤ x ∧ x < s.stop)) := by
        dsimp only
        omega
      rw [key, or_assoc]

theorem mergeInto_bounds :
    ∀ (rest : List Slot) (cur : Slot) (lo hi : Int), SlotsWithin lo hi rest →
      lo ≤ cur.start → cur.stop ≤ hi → SlotsWithin lo hi (mergeInto cur rest) := by
  intro rest
  induction rest with
  | nil =>
    intro cur lo hi _ hlo hhi m hm
    rcases List.mem_cons.mp hm with hm | hm
    · subst hm; exact ⟨hlo, hhi⟩
    · exact absurd hm (List.not_mem_nil m)
  | cons s rest ih =>
    intro cur lo hi hwithin hlo hhi
    have hs := hwithin s (List.mem_cons_self s rest)
    have hrest : SlotsWithin lo hi rest := fun m hm => hwithin m (List.mem_cons_of_mem s hm)
    unfold mergeInto
    by_cases hc : cur.stop < s.start
    · rw [if_pos hc]
      intro m hm
      rcases List.mem_cons.mp hm with hm | hm
      · subst hm; exact ⟨hlo, hhi⟩
      · exact ih s lo hi hrest hs.1 hs.2 m hm
    · rw [if_neg hc]
      exact ih ⟨cur.start, max cur.stop s.stop⟩ lo hi hrest hlo (by dsimp only; omega)

theorem mergeSegs_chain_wf (l : List Slot) (hs : SlotsSortedStart l) (hwf : SlotsWF l) :
    SlotsChain (mergeSegs l) ∧ SlotsWF (mergeSegs l) := by
  cases l with
  | nil => exact ⟨List.Pairwise.nil, fun m hm => absurd hm (List.not_mem_nil m)⟩
  | cons s rest =>
    exact mergeInto_chain_wf rest s hs (hwf s (List.mem_cons_self s rest))
      fun m hm => hwf m (List.mem_cons_of_mem s hm)

theorem mergeSegs_union (l : List Slot) (hs : SlotsSortedStart l) (x : Int) :
    pointInSlots x (mergeSegs l) ↔ pointInSlots x l := by
  cases l with
  | nil => rfl
  | cons s rest =>
    show pointInSlots x (mergeInto s rest) ↔ _
    rw [mergeInto_union rest s hs x, pointInSlots_cons]

theorem mergeSegs_bounds (l : List Slot) (lo hi : Int) (h : SlotsWithin lo hi l) :
    SlotsWithin lo hi (mergeSegs l) := by
  cases l with
  | nil => exact fun m hm => absurd hm (List.not_mem_nil m)
  | cons s rest =>
    have hs := h s (List.mem_cons_self s rest)
    exact mergeInto_bounds rest s lo hi
      (fun m hm => h m (List.mem_cons_of_mem s hm)) hs.1 hs.2

/-- Invariant of the inversion walk: the merged segments form a strict
chain, all at or after the cursor and within the day end. -/
def InvWalk (dayEnd cur : Int) (ms : List Slot) : Prop :=
  SlotsChain ms ∧ ∀ m ∈ ms, cur ≤ m.start ∧ m.start < m.stop ∧ m.stop ≤ dayEnd

theorem invWalk_step (dayEnd cur : Int) (m : Slot) (ms : List Slot)
    (h : InvWalk dayEnd cur (m :: ms)) : InvWalk dayEnd (max cur m.stop) ms := by
  obtain ⟨hchain, hin⟩ := h
  rw [SlotsChain, List.pairwise_cons] at hchain
  refine ⟨hchain.2, fun m2 hm2 => ?_⟩
  have h1 := hchain.1 m2 hm2
  have h2 := hin m2 (List.mem_cons_of_mem m hm2)
  have h3 := hin m (List.mem_cons_self m ms)
  exact ⟨by omega, h2.2.1, h2.2.2⟩

theorem invertSegs_nil_eq (minB : Nat) (dayEnd cur : Int) :
    invertSegs minB dayEnd cur [] =
      if cur < dayEnd ∧ minB ≤ minutesBetween cur dayEnd then [⟨cur, dayEnd⟩] else [] := rfl

theorem invertSegs_cons_eq (minB : Nat) (dayEnd cur : Int) (m : Slot) (ms : List Slot) :
    invertSegs minB dayEnd cur (m :: ms) =
      (if cur < m.start ∧ minB ≤ minutesBetween cur m.start then [⟨cur, m.start⟩] else []) ++
        invertSegs minB dayEnd (max cur m.stop) ms := rfl

theorem invertSegs_bounds (minB : Nat) (dayEnd : Int) :
    ∀ (ms : List Slot) (cur : Int), InvWalk dayEnd cur ms →
      ∀ w ∈ invertSegs minB dayEnd cur ms, cur ≤ w.start ∧ w.start < w.stop ∧ w.stop ≤ dayEnd := by
  intro ms
  induction ms with
  | nil =>
    intro cur _ w hw
    rw [invertSegs_nil_eq] at hw
    split_ifs at hw with hc
    · rcases List.mem_cons.mp hw with hw | hw
      · subst hw; exact ⟨le_refl _, hc.1, le_refl _⟩
      · exact absurd hw (List.not_mem_nil w)
    · exact absurd hw (List.not_mem_nil w)
  | cons m ms ih =>
    intro cur hwalk w hw
    have hm := hwalk.2 m (List.mem_cons_self m ms)
    rw [invertSegs_cons_eq] at hw
    rcases List.mem_append.mp hw with hw | hw
    · split_ifs at hw with hc
      · rcases List.mem_cons.mp hw with hw | hw
        · subst hw
          exact ⟨le_refl _, hc.1, by dsimp only; omega⟩
        · exact absurd hw (List.not_mem_nil w)
      · exact absurd hw (List.not_mem_nil w)
    · have := ih (max cur m.stop) (invWalk_step dayEnd cur m ms hwalk) w hw
      exact ⟨by omega, this.2.1, this.2.2⟩

theorem invertSegs_chain (minB : Nat) (dayEnd : Int) :
    ∀ (ms : List Slot) (cur : Int), InvWalk dayEnd cur ms →
      SlotsChain (invertSegs minB dayEnd cur ms) := by
  intro ms
  induction ms with
  | nil =>
    intro cur _
    rw [SlotsChain, invertSegs_nil_eq]
    split_ifs
    · exact List.pairwise_singleton _ _
    · exact List.Pairwise.nil
  | cons m ms ih =>
    intro cur hwalk
    have hm := hwalk.2 m (List.mem_cons_self m ms)
    have hstep := invWalk_step dayEnd cur m ms hwalk
    rw [SlotsChain, invertSegs_cons_eq, List.pairwise_append]
    refine ⟨?_, ih (max cur m.stop) hstep, ?_⟩
    · split_ifs
      · exact List.pairwise_singleton _ _
      · exact List.Pairwise.nil
    · intro a ha b hb
      have hb2 := invertSegs_bounds minB dayEnd ms (max cur m.stop) hstep b hb
      split_ifs at ha with hc
      · rcases List.mem_cons.mp ha with ha | ha
        · subst ha
          dsimp only
          omega
        · exact absurd ha (List.not_mem_nil a)
      · exact absurd ha (List.not_mem_nil a)

theorem invertSegs_avoid (minB : Nat) (dayEnd : Int) :
    ∀ (ms : List Slot) (cur : Int), InvWalk dayEnd cur ms →
      ∀ w ∈ invertSegs minB dayEnd cur ms, ∀ m ∈ ms,
        w.stop ≤ m.start ∨ m.stop ≤ w.start := by
  intro ms
  induction ms with
  | nil =>
    intro cur _ w _ m hm
    exact absurd hm (List.not_mem_nil m)
  | cons m ms ih =>
    intro cur hwalk w hw m2 hm2
    have hm := hwalk.2 m (List.mem_cons_self m ms)
    have hstep := invWalk_step dayEnd cur m ms hwalk
    have hchain := hwalk.1
    rw [SlotsChain, List.pairwise_cons] at hchain
    rw [invertSegs_cons_eq] at hw
    rcases List.mem_append.mp hw with hw | hw
    · split_ifs at hw with hc
      · rcases List.mem_cons.mp hw with hw | hw
        · subst hw
          rcases List.mem_cons.mp hm2 with hm2 | hm2
          · subst hm2; left; exact le_refl _
          · left
            have := hchain.1 m2 hm2
            dsimp only
            omega
        · exact absurd hw (List.not_mem_nil w)
      · exact absurd hw (List.not_mem_nil w)
    · have hwb := invertSegs_bounds minB dayEnd ms (max cur m.stop) hstep w hw
      rcases List.mem_cons.mp hm2 with hm2 | hm2
      · subst hm2; right; omega
      · exact ih (max cur m.stop) hstep w hw m2 hm2

theorem invertSegs_cover (dayEnd : Int) :
    ∀ (ms : List Slot) (cur : Int), InvWalk dayEnd cur ms →
      ∀ x : Int, cur ≤ x → x < dayEnd →
        pointInSlots x (invertSegs 0 dayEnd cur ms) ∨ pointInSlots x ms := by
  intro ms
  induction ms with
  | nil =>
    intro cur _ x hx1 hx2
    left
    rw [invertSegs_nil_eq, if_pos ⟨by omega, Nat.zero_le _⟩]
    exact ⟨⟨cur, dayEnd⟩, List.mem_cons_self _ _, hx1, hx2⟩
  | cons m ms ih =>
    intro cur hwalk x hx1 hx2
    have hm := hwalk.2 m (List.mem_cons_self m ms)
    have hstep := invWalk_step dayEnd cur m ms hwalk
    rw [invertSegs_cons_eq]
    by_cases hxm : x < m.start
    · left
      rw [if_pos ⟨by omega, Nat.zero_le _⟩]
      refine ⟨⟨cur, m.start⟩, ?_, hx1, hxm⟩
      rw [List.cons_append]
      exact List.mem_cons_self _ _
    · by_cases hxs : x < m.stop
      · right
        rw [pointInSlots_cons]
        left
        exact ⟨by omega, hxs⟩
      · rcases ih (max cur m.stop) hstep x (by omega) hx2 with h | h
        · left
          obtain ⟨w, hw, hwx⟩ := h
          exact ⟨w, List.mem_append.mpr (Or.inr hw), hwx⟩
        · right
          rw [pointInSlots_cons]
          right
          exact h

theorem pointInSlots_perm (x : Int) (l1 l2 : List Slot) (h : l1.Perm l2) :
    pointInSlots x l1 ↔ pointInSlots x l2 := by
  unfold pointInSlots
  constructor
  · rintro ⟨w, hw, hx⟩; exact ⟨w, h.mem_iff.mp hw, hx⟩
  · rintro ⟨w, hw, hx⟩; exact ⟨w, h.mem_iff.mpr hw, hx⟩

theorem mergedBusy_walk (day : Int) (busy : List Event) :
    InvWalk (dayEndOf day) (dayStartOf day) (mergedBusy day busy) ∧
    SlotsWithin (dayStartOf day) (dayEndOf day) (mergedBusy day busy) ∧
    SlotsWF (mergedBusy day busy) := by
  have hmem : ∀ m ∈ sortSegs (clampSegs day busy),
      dayStartOf day ≤ m.start ∧ m.start < m.stop ∧ m.stop ≤ dayEndOf day := by
    intro m hm
    exact clampSegs_mem day busy m ((sortSegs_perm (clampSegs day busy)).mem_iff.mp hm)
  have hwf : SlotsWF (sortSegs (clampSegs day busy)) := fun m hm => (hmem m hm).2.1
  have hwithin : SlotsWithin (dayStartOf day) (dayEndOf day) (sortSegs (clampSegs day busy)) :=
    fun m hm => ⟨(hmem m hm).1, (hmem m hm).2.2⟩
  obtain ⟨hchain, hwf2⟩ :=
    mergeSegs_chain_wf (sortSegs (clampSegs day busy)) (sortSegs_sorted _) hwf
  have hwithin2 : SlotsWithin (dayStartOf day) (dayEndOf day) (mergedBusy day busy) :=
    mergeSegs_bounds _ _ _ hwithin
  refine ⟨⟨hchain, fun m hm => ?_⟩, hwithin2, hwf2⟩
  exact ⟨(hwithin2 m hm).1, hwf2 m hm, (hwithin2 m hm).2⟩

theorem mergedBusy_union (day : Int) (busy : List Event) (x : Int) :
    pointInSlots x (mergedBusy day busy) ↔ pointInSlots x (clampSegs day busy) := by
  rw [show mergedBusy day busy = mergeSegs (sortSegs (clampSegs day busy)) from rfl,
    mergeSegs_union _ (sortSegs_sorted _) x]
  exact pointInSlots_perm x _ _ (sortSegs_perm _)

/-- **C2, amended.** The free windows returned by `freeWindows` are
pairwise non-overlapping, overlap no input busy event and no merged
busy segment, and both the free windows and the merged busy segments
lie inside the day span `[06:00, 22:00]`; with `minBlockMin = 0` (no
short gap is discarded) the free windows and the merged busy segments
together cover every point of the day span. With a positive
`minBlockMin` the coverage clause fails, because a gap shorter than
`minBlockMin` between two busy blocks belongs to neither side. -/
theorem C2_freeWindows_partition (day : Int) (busy : List Event) (minB : Nat) :
    List.Pairwise (fun a b => ¬ slotsOverlap a b) (freeWindows day busy minB) ∧
    (∀ w ∈ freeWindows day busy minB, ∀ e ∈ busy, ¬ slotMeetsEvent w e) ∧
    (∀ w ∈ freeWindows day busy minB,
      dayStartOf day ≤ w.start ∧ w.start < w.stop ∧ w.stop ≤ dayEndOf day) ∧
    (∀ m ∈ mergedBusy day busy,
      dayStartOf day ≤ m.start ∧ m.start < m.stop ∧ m.stop ≤ dayEndOf day) ∧
    (∀ w ∈ freeWindows day busy minB, ∀ m ∈ mergedBusy day busy, ¬ slotsOverlap w m) ∧
    (∀ x : Int, dayStartOf day ≤ x → x < dayEndOf day →
      pointInSlots x (freeWindows day busy 0) ∨ pointInSlots x (mergedBusy day busy)) := by
  obtain ⟨hwalk, hwithin, hwf⟩ := mergedBusy_walk day busy
  have hbounds := invertSegs_bounds minB (dayEndOf day) (mergedBusy day busy)
    (dayStartOf day) hwalk
  have havoid := invertSegs_avoid minB (dayEndOf day) (mergedBusy day busy)
    (dayStartOf day) hwalk
  refine ⟨?_, ?_, ?_, ?_, ?_, ?_⟩
  · have hchain := invertSegs_chain minB (dayEndOf day) (mergedBusy day busy)
      (dayStartOf day) hwalk
    rw [freeWindows_eq]
    rw [SlotsChain] at hchain
    refine hchain.imp fun h => ?_
    unfold slotsOverlap
    omega
  · intro w hw e he hmeet
    unfold slotMeetsEvent at hmeet
    rw [freeWindows_eq] at hw
    have hwb := hbounds w hw
    set x := max w.start e.startTime with hx
    have hx1 : w.start ≤ x := le_max_left _ _
    have hx2 : x < w.stop := by omega
    have hcl : pointInSlots x (clampSegs day busy) :=
      clampSegs_covers day busy e he x (le_max_right _ _) (by omega) (by omega) (by omega)
    have hmg : pointInSlots x (mergedBusy day busy) := (mergedBusy_union day busy x).mpr hcl
    obtain ⟨m, hm, hxm⟩ := hmg
    have := havoid w hw m hm
    omega
  · intro w hw
    rw [freeWindows_eq] at hw
    exact hbounds w hw
  · intro m hm
    exact ⟨(hwithin m hm).1, hwf m hm, (hwithin m hm).2⟩
  · intro w hw m hm
    rw [freeWindows_eq] at hw
    have := havoid w hw m hm
    unfold slotsOverlap
    omega
  · intro x hx1 hx2
    rw [freeWindows_eq]
    exact invertSegs_cover (dayEndOf day) (mergedBusy day busy) (dayStartOf day)
      hwalk x hx1 hx2

/-- The busy list of the C2/C7 counterexamples: a 10-minute gap
between two busy blocks (06:00–10:00 and 10:10–22:00). -/
def busyShortGap : List Event :=
  [mkEvent "a" 21600 36000 (Color.other ""), mkEvent "b" 36600 79200 (Color.other "")]

/-- **C2, counterexample.** With the default `minBlockMin = 15`, a
10-minute gap between two busy blocks (10:00–10:10) is discarded from
the free windows, so the union of the free windows and the merged busy
segments misses the point 10:00 and does not reconstruct the day span. -/
theorem C2_counterexample :
    ¬ (∀ x : Int, dayStartOf 0 ≤ x → x < dayEndOf 0 →
        pointInSlots x (freeWindows 0 busyShortGap 15) ∨
          pointInSlots x (mergedBusy 0 busyShortGap)) := by
  intro h
  have hx := h 36000 (by decide) (by decide)
  revert hx
  with_unfolding_all decide

/-- **C2, witness.** For one busy meeting 09:00–10:00 on day 0, the
coverage clause instantiates at the in-day point 06:01:40: it lies in
a free window or in a merged busy segment. -/
theorem C2_freeWindows_partition_witness :
    pointInSlots 21700 (freeWindows 0 [mkEvent "m" 32400 36000 (Color.other "")] 0) ∨
      pointInSlots 21700 (mergedBusy 0 [mkEvent "m" 32400 36000 (Color.other "")]) :=
  (C2_freeWindows_partition 0 [mkEvent "m" 32400 36000 (Color.other "")] 15).2.2.2.2.2
    21700 (by decide) (by decide)

/-! ### Claim C7: re-merging the merger's own output -/

/-- Free windows fed back to the planner as busy events (the title and
color play no role in `freeWindows`). -/
def windowsToEvents (l : List Slot) : List Event :=
  l.map fun w => mkEvent "" w.start w.stop (Color.other "")

/-- The canonical shape of a `freeWindows` result: strictly separated
nonempty windows inside the day span. -/
def Canon (day : Int) (l : List Slot) : Prop :=
  SlotsChain l ∧ SlotsWF l ∧ SlotsWithin (dayStartOf day) (dayEndOf day) l

theorem freeWindows_canon (day : Int) (busy : List Event) (minB : Nat) :
    Canon day (freeWindows day busy minB) := by
  obtain ⟨h1, _, h3, _, _, _⟩ := C2_freeWindows_partition day busy minB
  obtain ⟨hwalk, _, _⟩ := mergedBusy_walk day busy
  refine ⟨?_, fun w hw => (h3 w hw).2.1, fun w hw => ⟨(h3 w hw).1, (h3 w hw).2.2⟩⟩
  rw [freeWindows_eq]
  exact invertSegs_chain minB (dayEndOf day) (mergedBusy day busy) (dayStartOf day) hwalk

theorem filterMap_id_of_some (f : α → Option α) :
    ∀ l : List α, (∀ x ∈ l, f x = some x) → l.filterMap f = l := by
  intro l
  induction l with
  | nil => intro _; rfl
  | cons x xs ih =>
    intro h
    rw [List.filterMap_cons, h x (List.mem_cons_self x xs),
      ih fun y hy => h y (List.mem_cons_of_mem x hy)]

theorem clampSegs_roundtrip (day : Int) (l : List Slot) (hc : Canon day l) :
    clampSegs day (windowsToEvents l) = l := by
  unfold clampSegs windowsToEvents
  rw [List.filterMap_map]
  refine filterMap_id_of_some _ l fun w hw => ?_
  obtain ⟨_, hwf, hwithin⟩ := hc
  have h1 := hwf w hw
  have h2 := hwithin w hw
  unfold dayStartOf dayEndOf at h2
  show (if qdate w.start > day ∨ qdate w.stop < day then none else _) = some w
  have hq1 : ¬ qdate w.start > day := by
    unfold qdate
    intro hcon
    have := (Int.le_ediv_iff_mul_le (show (0:Int) < 86400 by norm_num)).mp hcon
    omega
  have hq2 : ¬ qdate w.stop < day := by
    unfold qdate
    intro hcon
    have : ¬ day ≤ w.stop / 86400 := not_le.mpr hcon
    rw [Int.le_ediv_iff_mul_le (show (0:Int) < 86400 by norm_num)] at this
    omega
  rw [if_neg (by tauto)]
  dsimp only [mkEvent]
  rw [show max (dayStartOf day) w.start = w.start from by unfold dayStartOf; omega,
    show min (dayEndOf day) w.stop = w.stop from by unfold dayEndOf; omega,
    if_pos h1]

/-- A permutation of a strictly start-sorted list that is weakly
start-sorted is the list itself. -/
theorem chain_perm_sorted_eq :
    ∀ l1 l2 : List Slot, l1.Perm l2 →
      List.Pairwise (fun a b : Slot => a.start < b.start) l1 →
      List.Pairwise (fun a b : Slot => a.start ≤ b.start) l2 → l1 = l2 := by
  intro l1
  induction l1 with
  | nil =>
    intro l2 hp _ _
    exact hp.nil_eq
  | cons a l1 ih =>
    intro l2 hp h1 h2
    cases l2 with
    | nil => exact absurd hp.symm.nil_eq (by simp)
    | cons b l2 =>
      have hab : a = b := by
        by_contra hne
        have hbmem : b ∈ a :: l1 := hp.mem_iff.mpr (List.mem_cons_self b l2)
        have hamem : a ∈ b :: l2 := hp.mem_iff.mp (List.mem_cons_self a l1)
        rcases List.mem_cons.mp hbmem with h | h
        · exact hne h.symm
        · have h3 : a.start < b.start := (List.pairwise_cons.mp h1).1 b h
          rcases List.mem_cons.mp hamem with h4 | h4
          · exact hne h4
          · have h5 : b.start ≤ a.start := (List.pairwise_cons.mp h2).1 a h4
            omega
      subst hab
      rw [ih l2 hp.cons_inv (List.pairwise_cons.mp h1).2 (List.pairwise_cons.mp h2).2]

theorem canon_strict_sorted (l : List Slot) (hchain : SlotsChain l) (hwf : SlotsWF l) :
    List.Pairwise (fun a b : Slot => a.start < b.start) l := by
  rw [SlotsChain] at hchain
  refine List.Pairwise.imp_of_mem ?_ hchain
  intro a b ha _ hab
  have := hwf a ha
  omega

theorem sortSegs_canon_id (l : List Slot) (hchain : SlotsChain l) (hwf : SlotsWF l) :
    sortSegs l = l :=
  (chain_perm_sorted_eq l (sortSegs l) (sortSegs_perm l).symm
    (canon_strict_sorted l hchain hwf) (sortSegs_sorted l)).symm

theorem mergeSegs_canon_id : ∀ l : List Slot, SlotsChain l → mergeSegs l = l := by
  have key : ∀ (rest : List Slot) (cur : Slot), SlotsChain (cur :: rest) →
      mergeInto cur rest = cur :: rest := by
    intro rest
    induction rest with
    | nil => intro cur _; rfl
    | cons s rest ih =>
      intro cur hchain
      rw [SlotsChain, List.pairwise_cons] at hchain
      have hcs : cur.stop < s.start := hchain.1 s (List.mem_cons_self s rest)
      unfold mergeInto
      rw [if_pos hcs, ih s hchain.2]
  intro l hl
  cases l with
  | nil => rfl
  | cons s rest => exact key rest s hl

/-- Double inversion: inverting the complement of a canonical chain
(inner cursor `b`) from an outer cursor `a ≤ b` restores the chain,
with the extra window `[a, b)` in front when `a < b`. -/
theorem invert_invert (dayEnd : Int) :
    ∀ (l : List Slot) (a b : Int), a ≤ b → b ≤ dayEnd →
      (a = b ∨ ∀ m ∈ l, b < m.start) → SlotsChain l →
      (∀ m ∈ l, b ≤ m.start ∧ m.start < m.stop ∧ m.stop ≤ dayEnd) →
      invertSegs 0 dayEnd a (invertSegs 0 dayEnd b l) =
        if a < b then ⟨a, b⟩ :: l else l := by
  intro l
  induction l with
  | nil =>
    intro a b hab hbe _ _ _
    rw [invertSegs_nil_eq]
    by_cases hb : b < dayEnd
    · have hdeneg : ¬ (dayEnd < dayEnd ∧ (0:Nat) ≤ minutesBetween dayEnd dayEnd) :=
        fun hcon => absurd hcon.1 (lt_irrefl dayEnd)
      rw [if_pos ⟨hb, Nat.zero_le _⟩, invertSegs_cons_eq]
      dsimp only
      rw [show max a dayEnd = dayEnd from by omega, invertSegs_nil_eq,
        if_neg hdeneg, List.append_nil]
      by_cases hab2 : a < b
      · rw [if_pos (show a < b ∧ (0:Nat) ≤ minutesBetween a b from ⟨hab2, Nat.zero_le _⟩),
          if_pos hab2]
      · rw [if_neg (show ¬ (a < b ∧ (0:Nat) ≤ minutesBetween a b) from fun hcon => hab2 hcon.1),
          if_neg hab2]
    · have hbeq : b = dayEnd := by omega
      rw [if_neg (show ¬ (b < dayEnd ∧ (0:Nat) ≤ minutesBetween b dayEnd) from
        fun hcon => hb hcon.1), invertSegs_nil_eq, hbeq]
      by_cases hab2 : a < dayEnd
      · rw [if_pos (show a < dayEnd ∧ (0:Nat) ≤ minutesBetween a dayEnd from
          ⟨hab2, Nat.zero_le _⟩), if_pos hab2]
      · rw [if_neg (show ¬ (a < dayEnd ∧ (0:Nat) ≤ minutesBetween a dayEnd) from
          fun hcon => hab2 hcon.1), if_neg hab2]
  | cons m ms ih =>
    intro a b hab hbe hdisj hchain hin
    have hm := hin m (List.mem_cons_self m ms)
    have hchain2 := hchain
    rw [SlotsChain, List.pairwise_cons] at hchain2
    have hrest : ∀ m2 ∈ ms, m.stop ≤ m2.start ∧ m2.start < m2.stop ∧ m2.stop ≤ dayEnd := by
      intro m2 hm2
      have h1 := hchain2.1 m2 hm2
      have h2 := hin m2 (List.mem_cons_of_mem m hm2)
      exact ⟨by omega, h2.2.1, h2.2.2⟩
    rw [invertSegs_cons_eq]
    by_cases hbm : b < m.start
    · rw [if_pos (show b < m.start ∧ (0:Nat) ≤ minutesBetween b m.start from
        ⟨hbm, Nat.zero_le _⟩),
        show max b m.stop = m.stop from by omega, List.singleton_append,
        invertSegs_cons_eq]
      dsimp only
      rw [show max a m.start = m.start from by omega]
      have hih := ih m.start m.stop (by omega) (by omega)
        (Or.inr fun m2 hm2 => by have := hchain2.1 m2 hm2; omega)
        hchain2.2 hrest
      rw [hih, if_pos hm.2.1]
      by_cases hab2 : a < b
      · rw [if_pos (show a < b ∧ (0:Nat) ≤ minutesBetween a b from ⟨hab2, Nat.zero_le _⟩),
          if_pos hab2, List.singleton_append]
      · rw [if_neg (show ¬ (a < b ∧ (0:Nat) ≤ minutesBetween a b) from fun hcon => hab2 hcon.1),
          if_neg hab2, List.nil_append]
    · have habeq : a = b := by
        rcases hdisj with h | h
        · exact h
        · exact absurd (h m (List.mem_cons_self m ms)) hbm
      have hbeq : b = m.start := by omega
      rw [if_neg (show ¬ (b < m.start ∧ (0:Nat) ≤ minutesBetween b m.start) from
        fun hcon => hbm hcon.1), List.nil_append,
        show max b m.stop = m.stop from by omega]
      have hih := ih a m.stop (by omega) (by omega)
        (Or.inr fun m2 hm2 => by have := hchain2.1 m2 hm2; omega)
        hchain2.2 hrest
      rw [hih, if_pos (show a < m.stop from by omega),
        if_neg (show ¬ a < b from by omega)]
      have heq : (⟨a, m.stop⟩ : Slot) = m := by
        rw [show a = m.start from by omega]
      rw [heq]

/-- **C7, amended.** With `minBlockMin = 0` (no gap dropped), feeding
the free windows back in as the busy set twice reproduces the original
free windows exactly. -/
theorem C7_remerge_identity (day : Int) (busy : List Event) :
    freeWindows day
        (windowsToEvents (freeWindows day (windowsToEvents (freeWindows day busy 0)) 0)) 0 =
      freeWindows day busy 0 := by
  have happ : ∀ l, Canon day l →
      freeWindows day (windowsToEvents l) 0 =
        invertSegs 0 (dayEndOf day) (dayStartOf day) l := by
    intro l hc
    rw [freeWindows_eq,
      show mergedBusy day (windowsToEvents l)
        = mergeSegs (sortSegs (clampSegs day (windowsToEvents l))) from rfl,
      clampSegs_roundtrip day l hc, sortSegs_canon_id l hc.1 hc.2.1,
      mergeSegs_canon_id l hc.1]
  have hW : Canon day (freeWindows day busy 0) := freeWindows_canon day busy 0
  have hW1 : Canon day (freeWindows day (windowsToEvents (freeWindows day busy 0)) 0) :=
    freeWindows_canon day _ 0
  rw [happ _ hW1, happ _ hW]
  have hstart : dayStartOf day ≤ dayEndOf day := by
    unfold dayStartOf dayEndOf; omega
  have := invert_invert (dayEndOf day) (freeWindows day busy 0)
    (dayStartOf day) (dayStartOf day) (le_refl _) hstart (Or.inl rfl) hW.1
    (fun m hm => ⟨(hW.2.2 m hm).1, hW.2.1 m hm, (hW.2.2 m hm).2⟩)
  rw [this, if_neg (by omega)]

/-- The busy list of the C7 counterexample: one 5-minute event
10:00–10:05. -/
def busyTiny : List Event := [mkEvent "m" 36000 36300 (Color.other "")]

/-- **C7, counterexample.** With the actual `minBlockMin = 15`, the
free windows around a 5-minute busy event are `[06:00, 10:00)` and
`[10:05, 22:00)`; their complement (the 5-minute busy gap) is below
the minimum and is dropped entirely, so re-merging twice yields the
single window `[06:00, 22:00)` instead of the original two. -/
theorem C7_counterexample :
    freeWindows 0
        (windowsToEvents (freeWindows 0 (windowsToEvents (freeWindows 0 busyTiny 15)) 15)) 15 ≠
      freeWindows 0 busyTiny 15 := by
  have hc1 : clampSegs 0 busyTiny = [⟨36000, 36300⟩] := by
    decide
  have hs1 : sortSegs [(⟨36000, 36300⟩ : Slot)] = [⟨36000, 36300⟩] :=
    sortSegs_canon_id _ (by decide) (by decide)
  have h1 : freeWindows 0 busyTiny 15 = [⟨21600, 36000⟩, ⟨36300, 79200⟩] := by
    rw [freeWindows_eq,
      show mergedBusy 0 busyTiny = mergeSegs (sortSegs (clampSegs 0 busyTiny)) from rfl,
      hc1, hs1]
    decide
  have hc2 : clampSegs 0 (windowsToEvents [⟨21600, 36000⟩, ⟨36300, 79200⟩]) =
      [⟨21600, 36000⟩, ⟨36300, 79200⟩] := by
    decide
  have hs2 : sortSegs [(⟨21600, 36000⟩ : Slot), ⟨36300, 79200⟩] =
      [⟨21600, 36000⟩, ⟨36300, 79200⟩] :=
    sortSegs_canon_id _ (by decide) (by decide)
  have h2 : freeWindows 0 (windowsToEvents [⟨21600, 36000⟩, ⟨36300, 79200⟩]) 15 = [] := by
    rw [freeWindows_eq, show mergedBusy 0 (windowsToEvents [⟨21600, 36000⟩, ⟨36300, 79200⟩])
        = mergeSegs (sortSegs (clampSegs 0 (windowsToEvents [⟨21600, 36000⟩, ⟨36300, 79200⟩])))
        from rfl,
      hc2, hs2]
    decide
  have h3 : freeWindows 0 (windowsToEvents []) 15 = [⟨21600, 79200⟩] := by
    rw [freeWindows_eq, show mergedBusy 0 (windowsToEvents [])
        = mergeSegs (sortSegs (clampSegs 0 (windowsToEvents []))) from rfl,
      show clampSegs 0 (windowsToEvents []) = [] from rfl,
      sortSegs_canon_id [] (by decide) (by decide)]
    decide
  rw [h1, h2, h3]
  decide

/-! ### Claim C1: overlap structure of the planned blocks -/

/-- Two events occupy disjoint (half-open) time ranges. -/
def evDisjoint (a b : Event) : Prop := a.endTime ≤ b.startTime ∨ b.endTime ≤ a.startTime

/-- Two slots occupy disjoint time ranges. -/
def slotDisjoint (a b : Slot) : Prop := a.stop ≤ b.start ∨ b.stop ≤ a.start

/-- `w` is a sub-range of `v`. -/
def subSlot (w v : Slot) : Prop := v.start ≤ w.start ∧ w.stop ≤ v.stop

/-- The event lies inside the slot. -/
def evInSlot (ev : Event) (w : Slot) : Prop := w.start ≤ ev.startTime ∧ ev.endTime ≤ w.stop

/-- The event is disjoint from every slot of the pool. -/
def evAvoids (ev : Event) (pool : List Slot) : Prop :=
  ∀ w ∈ pool, ev.endTime ≤ w.start ∨ w.stop ≤ ev.startTime

/-- Blue (task chunk) blocks are pairwise disjoint in time. -/
def BlueDisj (l : List Event) : Prop :=
  List.Pairwise (fun a b => a.color = kTaskBlue → b.color = kTaskBlue → evDisjoint a b) l

theorem subSlot_refl (w : Slot) : subSlot w w := ⟨le_refl _, le_refl _⟩

theorem subSlot_trans (a b c : Slot) (h1 : subSlot a b) (h2 : subSlot b c) : subSlot a c := by
  unfold subSlot at *
  omega

theorem pairwise_slotDisjoint_set (pool : List Slot) (i : Nat) (v : Slot)
    (hi : i < pool.length) (hp : List.Pairwise slotDisjoint pool)
    (hv : subSlot v pool[i]) :
    List.Pairwise slotDisjoint (pool.set i v) := by
  rw [List.pairwise_iff_getElem] at hp ⊢
  intro a b ha hb hab
  simp only [List.length_set] at ha hb
  rw [List.getElem_set, List.getElem_set]
  by_cases h1 : i = a
  · subst h1
    rw [if_pos rfl, if_neg (by omega)]
    have hmain := hp i b ha hb hab
    unfold slotDisjoint at *
    unfold subSlot at hv
    omega
  · rw [if_neg h1]
    by_cases h2 : i = b
    · subst h2
      rw [if_pos rfl]
      have hmain := hp a i ha hb hab
      unfold slotDisjoint at *
      unfold subSlot at hv
      omega
    · rw [if_neg h2]
      exact hp a b ha hb hab

/-- Invariant of the carve loop: pool fragments only shrink (each
final fragment sits inside an initial one and the pool stays pairwise
disjoint), every emitted chunk lies inside an initial fragment and is
disjoint from every final fragment, and the chunks are pairwise
disjoint. -/
theorem carveF_chunk_inv (now : Int) (t : Task) :
    ∀ (fuel need : Nat) (pool : List Slot),
      List.Pairwise slotDisjoint pool →
      (∀ w2 ∈ (carveF now t fuel need pool).1, ∃ w ∈ pool, subSlot w2 w) ∧
      List.Pairwise slotDisjoint (carveF now t fuel need pool).1 ∧
      (∀ ev ∈ (carveF now t fuel need pool).2, ev.color = kTaskBlue →
        (∃ w ∈ pool, evInSlot ev w) ∧ evAvoids ev (carveF now t fuel need pool).1) ∧
      BlueDisj (carveF now t fuel need pool).2 := by
  intro fuel
  induction fuel with
  | zero =>
    intro need pool hp
    exact ⟨fun w2 hw2 => ⟨w2, hw2, subSlot_refl w2⟩, hp,
      fun ev hev _ => absurd hev (List.not_mem_nil ev), List.Pairwise.nil⟩
  | succ a ih =>
    intro need pool hp
    by_cases hneed : need = 0
    · have heq : carveF now t (a + 1) need pool = (pool, []) := by
        simp only [carveF, hneed, if_pos]
      rw [heq]
      exact ⟨fun w2 hw2 => ⟨w2, hw2, subSlot_refl w2⟩, hp,
        fun ev hev _ => absurd hev (List.not_mem_nil ev), List.Pairwise.nil⟩
    · rcases hbest : bestIdx (fun w => slotScore now w t) eligSlot pool with _ | i
      · have heq : carveF now t (a + 1) need pool = (pool, []) := by
          simp only [carveF, if_neg hneed, hbest]
        rw [heq]
        exact ⟨fun w2 hw2 => ⟨w2, hw2, subSlot_refl w2⟩, hp,
          fun ev hev _ => absurd hev (List.not_mem_nil ev), List.Pairwise.nil⟩
      · rcases hget : pool[i]? with _ | chosen
        · have heq : carveF now t (a + 1) need pool = (pool, []) := by
            simp only [carveF, if_neg hneed, hbest, hget]
          rw [heq]
          exact ⟨fun w2 hw2 => ⟨w2, hw2, subSlot_refl w2⟩, hp,
            fun ev hev _ => absurd hev (List.not_mem_nil ev), List.Pairwise.nil⟩
        · obtain ⟨hilen, helig, _⟩ := bestIdx_some _ _ pool i hbest
          obtain ⟨hilen2, hchval⟩ := List.getElem?_eq_some_iff.mp hget
          have hspan : 900 ≤ (chosen.stop - chosen.start).toNat := by
            rw [← hchval]
            exact span_ge_of_elig _ helig
          set chunk := min t.maxChunkMin (min need (minutesBetween chosen.start chosen.stop))
            with hchunkdef
          set e := chosen.start + chunk * 60 with hedef
          set eBuf := e + 10 * 60 with hebufdef
          have hchunkle : chosen.start ≤ e ∧ e ≤ chosen.stop := by
            have hle : chunk ≤ minutesBetween chosen.start chosen.stop := by omega
            unfold minutesBetween at hle
            omega
          set chunkEv := mkEvent ("🔵 " ++ t.title) chosen.start e kTaskBlue with hcedef
          set preB := mkEvent "Buffer" (chosen.start - 5 * 60) chosen.start kBufferGray
            with hpredef
          set postB := mkEvent "Buffer" e eBuf kBufferGray with hpostdef
          set pool2 := if chosen.stop ≤ eBuf then pool.eraseIdx i
            else pool.set i ⟨eBuf, chosen.stop⟩ with hpool2def
          -- facts about the shrunken pool
          have hsub2 : ∀ w2 ∈ pool2, ∃ w ∈ pool, subSlot w2 w := by
            intro w2 hw2
            rw [hpool2def] at hw2
            split_ifs at hw2 with hcase
            · exact ⟨w2, List.mem_of_mem_eraseIdx hw2, subSlot_refl w2⟩
            · rcases List.mem_or_eq_of_mem_set hw2 with h | h
              · exact ⟨w2, h, subSlot_refl w2⟩
              · refine ⟨chosen, by rw [← hchval]; exact List.getElem_mem hilen2, ?_⟩
                rw [h]
                unfold subSlot
                dsimp only
                omega
          have hp2 : List.Pairwise slotDisjoint pool2 := by
            rw [hpool2def]
            split_ifs with hcase
            · exact hp.sublist (List.eraseIdx_sublist pool i)
            · refine pairwise_slotDisjoint_set pool i _ hilen2 hp ?_
              rw [hchval]
              unfold subSlot
              dsimp only
              omega
          have havoid2 : evAvoids chunkEv pool2 := by
            intro w2 hw2
            rw [hpool2def] at hw2
            have hkey : ∀ k, ∀ hk : k < pool.length, k ≠ i →
                chunkEv.endTime ≤ pool[k].start ∨ pool[k].stop ≤ chunkEv.startTime := by
              intro k hk hki
              have hpg := List.pairwise_iff_getElem.mp hp
              rcases Nat.lt_or_ge k i with hlt | hge
              · have := hpg k i hk hilen2 hlt
                unfold slotDisjoint at this
                rw [hchval] at this
                show chunkEv.endTime ≤ _ ∨ _
                rw [hcedef]
                dsimp only [mkEvent]
                omega
              · have hgt : i < k := by omega
                have := hpg i k hilen2 hk hgt
                unfold slotDisjoint at this
                rw [hchval] at this
                rw [hcedef]
                dsimp only [mkEvent]
                omega
            split_ifs at hw2 with hcase
            · obtain ⟨k, hk, hki, hkv⟩ := List.mem_eraseIdx_iff_getElem.mp hw2
              rw [← hkv]
              exact hkey k hk hki
            · obtain ⟨k, hk, hkv⟩ := List.mem_iff_getElem.mp hw2
              simp only [List.length_set] at hk
              rw [List.getElem_set] at hkv
              by_cases hki : i = k
              · rw [if_pos hki] at hkv
                rw [← hkv]
                left
                rw [hcedef]
                dsimp only [mkEvent]
                omega
              · rw [if_neg hki] at hkv
                rw [← hkv]
                exact hkey k hk (fun hcon => hki hcon.symm)
          have hchunkInPool : ∃ w ∈ pool, evInSlot chunkEv w := by
            refine ⟨chosen, by rw [← hchval]; exact List.getElem_mem hilen2, ?_⟩
            rw [hcedef]
            unfold evInSlot
            dsimp only [mkEvent]
            omega
          by_cases hsplit : t.splitOK
          · -- recursive case
            have heq : carveF now t (a + 1) need pool =
                ((carveF now t a (need - chunk) pool2).1,
                 [chunkEv, preB, postB] ++ (carveF now t a (need - chunk) pool2).2) := by
              simp only [carveF, if_neg hneed, hbest, hget, if_pos hsplit]
            obtain ⟨ih1, ih2, ih3, ih4⟩ := ih (need - chunk) pool2 hp2
            rw [heq]
            refine ⟨?_, ih2, ?_, ?_⟩
            · intro w2 hw2
              obtain ⟨w3, hw3, hsub3⟩ := ih1 w2 hw2
              obtain ⟨w4, hw4, hsub4⟩ := hsub2 w3 hw3
              exact ⟨w4, hw4, subSlot_trans _ _ _ hsub3 hsub4⟩
            · intro ev hev hblue
              rcases List.mem_append.mp hev with hev | hev
              · have hevc : ev = chunkEv := by
                  rcases List.mem_cons.mp hev with h | h
                  · exact h
                  · rcases List.mem_cons.mp h with h2 | h2
                    · rw [h2, hpredef] at hblue
                      exact absurd hblue (by intro hcon; exact Color.noConfusion hcon)
                    · rcases List.mem_cons.mp h2 with h3 | h3
                      · rw [h3, hpostdef] at hblue
                        exact absurd hblue (by intro hcon; exact Color.noConfusion hcon)
                      · exact absurd h3 (List.not_mem_nil ev)
                subst hevc
                refine ⟨hchunkInPool, ?_⟩
                intro w2 hw2
                obtain ⟨w3, hw3, hsub3⟩ := ih1 w2 hw2
                have := havoid2 w3 hw3
                unfold subSlot at hsub3
                rcases this with h | h
                · left; omega
                · right; omega
              · obtain ⟨⟨w3, hw3, hin3⟩, havoid3⟩ := ih3 ev hev hblue
                obtain ⟨w4, hw4, hsub4⟩ := hsub2 w3 hw3
                refine ⟨⟨w4, hw4, ?_⟩, havoid3⟩
                unfold evInSlot at hin3 ⊢
                unfold subSlot at hsub4
                omega
            · rw [BlueDisj, List.pairwise_append]
              refine ⟨?_, ih4, ?_⟩
              · -- within the fresh triple: only the chunk is blue
                refine List.Pairwise.cons (fun b hb hblue hbblue => ?_)
                  (List.Pairwise.cons (fun b hb hblue _ => ?_)
                    (List.pairwise_singleton _ _))
                · rcases List.mem_cons.mp hb with h | h
                  · rw [h, hpredef] at hbblue
                    exact absurd hbblue (by intro hcon; exact Color.noConfusion hcon)
                  · rcases List.mem_cons.mp h with h2 | h2
                    · rw [h2, hpostdef] at hbblue
                      exact absurd hbblue (by intro hcon; exact Color.noConfusion hcon)
                    · exact absurd h2 (List.not_mem_nil b)
                · rw [hpredef] at hblue
                  exact absurd hblue (by intro hcon; exact Color.noConfusion hcon)
              · -- the fresh chunk is disjoint from every later chunk
                intro x hx y hy hxblue hyblue
                have hxc : x = chunkEv := by
                  rcases List.mem_cons.mp hx with h | h
                  · exact h
                  · rcases List.mem_cons.mp h with h2 | h2
                    · rw [h2, hpredef] at hxblue
                      exact absurd hxblue (by intro hcon; exact Color.noConfusion hcon)
                    · rcases List.mem_cons.mp h2 with h3 | h3
                      · rw [h3, hpostdef] at hxblue
                        exact absurd hxblue (by intro hcon; exact Color.noConfusion hcon)
                      · exact absurd h3 (List.not_mem_nil x)
                subst hxc
                obtain ⟨⟨w3, hw3, hin3⟩, _⟩ := ih3 y hy hyblue
                obtain hav := havoid2 w3 hw3
                unfold evInSlot at hin3
                unfold evDisjoint
                rcases hav with h | h
                · left; omega
                · right; omega
          · -- single-chunk case
            have heq : carveF now t (a + 1) need pool = (pool2, [chunkEv, preB, postB]) := by
              simp only [carveF, if_neg hneed, hbest, hget, if_neg hsplit]
            rw [heq]
            refine ⟨hsub2, hp2, ?_, ?_⟩
            · intro ev hev hblue
              have hevc : ev = chunkEv := by
                rcases List.mem_cons.mp hev with h | h
                · exact h
                · rcases List.mem_cons.mp h with h2 | h2
                  · rw [h2, hpredef] at hblue
                    exact absurd hblue (by intro hcon; exact Color.noConfusion hcon)
                  · rcases List.mem_cons.mp h2 with h3 | h3
                    · rw [h3, hpostdef] at hblue
                      exact absurd hblue (by intro hcon; exact Color.noConfusion hcon)
                    · exact absurd h3 (List.not_mem_nil ev)
              subst hevc
              exact ⟨hchunkInPool, havoid2⟩
            · refine List.Pairwise.cons (fun b hb hblue hbblue => ?_)
                (List.Pairwise.cons (fun b hb hblue _ => ?_)
                  (List.pairwise_singleton _ _))
              · rcases List.mem_cons.mp hb with h | h
                · rw [h, hpredef] at hbblue
                  exact absurd hbblue (by intro hcon; exact Color.noConfusion hcon)
                · rcases List.mem_cons.mp h with h2 | h2
                  · rw [h2, hpostdef] at hbblue
                    exact absurd hbblue (by intro hcon; exact Color.noConfusion hcon)
                  · exact absurd h2 (List.not_mem_nil b)
              · rw [hpredef] at hblue
                exact absurd hblue (by intro hcon; exact Color.noConfusion hcon)

theorem goTasks_chunk_inv (now : Int) :
    ∀ (ts : List Task) (pool : List Slot),
      List.Pairwise slotDisjoint pool →
      (∀ w2 ∈ (goTasks now ts pool).1, ∃ w ∈ pool, subSlot w2 w) ∧
      List.Pairwise slotDisjoint (goTasks now ts pool).1 ∧
      (∀ ev ∈ (goTasks now ts pool).2, ev.color = kTaskBlue →
        (∃ w ∈ pool, evInSlot ev w) ∧ evAvoids ev (goTasks now ts pool).1) ∧
      BlueDisj (goTasks now ts pool).2 := by
  intro ts
  induction ts with
  | nil =>
    intro pool hp
    exact ⟨fun w2 hw2 => ⟨w2, hw2, subSlot_refl w2⟩, hp,
      fun ev hev _ => absurd hev (List.not_mem_nil ev), List.Pairwise.nil⟩
  | cons t ts ih =>
    intro pool hp
    have hstep1 : (goTasks now (t :: ts) pool).1 =
        (goTasks now ts (carve now t (max 15 t.estimateMin) pool).1).1 := rfl
    have hstep2 : (goTasks now (t :: ts) pool).2 =
        (carve now t (max 15 t.estimateMin) pool).2 ++
          (goTasks now ts (carve now t (max 15 t.estimateMin) pool).1).2 := rfl
    obtain ⟨c1, c2, c3, c4⟩ :=
      carveF_chunk_inv now t (poolSpan pool / 600 + 1) (max 15 t.estimateMin) pool hp
    obtain ⟨g1, g2, g3, g4⟩ := ih (carve now t (max 15 t.estimateMin) pool).1 c2
    rw [hstep1, hstep2]
    refine ⟨?_, g2, ?_, ?_⟩
    · intro w2 hw2
      obtain ⟨w3, hw3, h3⟩ := g1 w2 hw2
      obtain ⟨w4, hw4, h4⟩ := c1 w3 hw3
      exact ⟨w4, hw4, subSlot_trans _ _ _ h3 h4⟩
    · intro ev hev hblue
      rcases List.mem_append.mp hev with hev | hev
      · obtain ⟨⟨w3, hw3, hin3⟩, hav3⟩ := c3 ev hev hblue
        refine ⟨⟨w3, hw3, hin3⟩, ?_⟩
        intro w2 hw2
        obtain ⟨w4, hw4, h4⟩ := g1 w2 hw2
        have := hav3 w4 hw4
        unfold subSlot at h4
        rcases this with h | h
        · left; omega
        · right; omega
      · obtain ⟨⟨w3, hw3, hin3⟩, hav3⟩ := g3 ev hev hblue
        obtain ⟨w4, hw4, h4⟩ := c1 w3 hw3
        refine ⟨⟨w4, hw4, ?_⟩, hav3⟩
        unfold evInSlot at hin3 ⊢
        unfold subSlot at h4
        omega
    · rw [BlueDisj, List.pairwise_append]
      refine ⟨c4, g4, ?_⟩
      intro x hx y hy hxblue hyblue
      obtain ⟨_, hxav⟩ := c3 x hx hxblue
      obtain ⟨⟨w3, hw3, hin3⟩, _⟩ := g3 y hy hyblue
      have := hxav w3 hw3
      unfold evInSlot at hin3
      unfold evDisjoint
      rcases this with h | h
      · left; omega
      · right; omega

theorem scheduleHabits_green (ws : List Slot) (hs : List Habit) :
    ∀ ev ∈ scheduleHabits ws hs, ev.color = kHabitGreen := by
  intro ev hev
  unfold scheduleHabits at hev
  rw [List.mem_filterMap] at hev
  obtain ⟨h, _, hfh⟩ := hev
  rcases hb : bestIdx (fun w => habitScore w h) (fun _ => true) ws with _ | i
  · rw [hb] at hfh
    exact absurd hfh (by simp)
  · rw [hb] at hfh
    dsimp only at hfh
    rcases hg : ws[i]? with _ | w
    · rw [hg] at hfh
      exact absurd hfh (by simp)
    · rw [hg] at hfh
      dsimp only at hfh
      obtain rfl := (Option.some.injEq _ _ ▸ hfh :)
      rfl

/-- **C1, amended.** Across all blocks returned by `planDay`, no two
task chunk (blue) blocks overlap in time. Buffers and habit blocks are
exempt: consecutive chunks in one window produce overlapping buffers,
and habit blocks can overlap anything (see the counterexample). -/
theorem C1_chunks_no_overlap (now day : Int) (existing : List Event)
    (ts : List Task) (hs : List Habit) (pT : List Task) (pH : List Habit) :
    List.Pairwise
      (fun a b => a.color = kTaskBlue → b.color = kTaskBlue → ¬ blocksOverlap a b)
      (planDay now day existing ts hs pT pH) := by
  have hshape : planDay now day existing ts hs pT pH =
      scheduleTasksIntoWindows now (freeWindows day existing 15)
        (if ts.isEmpty then pT else ts) ++
      scheduleHabits
        (freeWindows day
          (existing ++ scheduleTasksIntoWindows now (freeWindows day existing 15)
            (if ts.isEmpty then pT else ts)) 15)
        (if hs.isEmpty then pH else hs) := rfl
  rw [hshape, List.pairwise_append]
  refine ⟨?_, ?_, ?_⟩
  · -- blue blocks of the task carver are pairwise disjoint
    unfold scheduleTasksIntoWindows
    by_cases hc : (if ts.isEmpty then pT else ts).isEmpty ∨
        (freeWindows day existing 15).isEmpty
    · rw [if_pos hc]
      exact List.Pairwise.nil
    · rw [if_neg hc]
      have hpool : List.Pairwise slotDisjoint (freeWindows day existing 15) := by
        have hch := (freeWindows_canon day existing 15).1
        rw [SlotsChain] at hch
        exact hch.imp fun h => Or.inl (le_of_lt h)
      obtain ⟨_, _, _, g4⟩ :=
        goTasks_chunk_inv now (sortTasks (if ts.isEmpty then pT else ts))
          (freeWindows day existing 15) hpool
      rw [BlueDisj] at g4
      refine g4.imp ?_
      intro a b h hab hbb
      have hd := h hab hbb
      unfold evDisjoint at hd
      unfold blocksOverlap
      omega
  · -- habit blocks are all green, so the relation is vacuous
    rw [List.pairwise_iff_getElem]
    intro a b ha hb hab hblue
    have := scheduleHabits_green _ _ _ (List.getElem_mem ha)
    rw [this] at hblue
    exact absurd hblue (by intro hcon; exact Color.noConfusion hcon)
  · intro x _ y hy _ hyblue
    have := scheduleHabits_green _ _ y hy
    rw [this] at hyblue
    exact absurd hyblue (by intro hcon; exact Color.noConfusion hcon)

/-- A habit used twice in the pool for the C1 counterexample. -/
def habitDup : Habit := ⟨"HM", 20, "", 3⟩

/-- **C1, counterexample.** Two refutations of "no two blocks of
`planDay` overlap": (a) two identical habits are both placed at the
start of the same best window, giving two fully overlapping habit
blocks; (b) a splittable task carving two chunks into one window makes
the pre-buffer of the second chunk overlap the post-buffer of the
first (the window only advances past the chunk, pre-buffers reach back
5 minutes). -/
theorem C1_counterexample :
    (¬ List.Pairwise (fun a b => ¬ blocksOverlap a b)
        (planDay 0 0 [] [] [habitDup, habitDup] [] [])) ∧
    (¬ List.Pairwise (fun a b => ¬ blocksOverlap a b)
        (planDay 21600 0 [] [taskDemo] [] [] [])) := by
  constructor
  · with_unfolding_all decide
  · with_unfolding_all decide

/-! ### Claim C10: sub-15-minute chunks -/

/-- **C10.** `planDay` can emit a task chunk shorter than 15 minutes:
with free windows `[06:00, 06:15)` and `[12:00, 12:16)` and a
splittable 20-minute task, the first chunk consumes 15 minutes and the
5-minute remainder is placed as a second (blue) chunk — the chunk
length `min(maxChunkMin, remainingEffort, fragmentMinutes)` has no
lower bound even though windows and the initial effort clamp are held
to 15 minutes. -/
theorem C10_sub15_chunk :
    ∃ ev ∈ planDay 21600 0
        [mkEvent "x" 22500 43200 (Color.other ""), mkEvent "y" 44160 79200 (Color.other "")]
        [⟨"", "C", 20, 3, none, false, false, true, true, 120, ""⟩] [] [] [],
      ev.color = kTaskBlue ∧ minutesBetween ev.startTime ev.endTime < 15 := by
  with_unfolding_all decide

/-! ### Claim C9: two-run determinism with the clock held fixed

The C++ scorer calls `QDateTime::currentDateTime()` afresh at every
use (once for urgency when a deadline is set, once for earliness), so
the planner's output is a function of the sequence of values those
reads return. The clocked definitions below thread an explicit read
index through the whole pipeline; determinism is then the statement
that two runs whose clocks constantly return the same instant produce
identical block lists, whatever read indices they start from. -/

/-- `slotScore` with the clock reads made explicit: `clk k` is the
value of the `k`-th `currentDateTime()` call of the run, `n` the index
of the next read. Returns the score and the next read index. -/
def slotScoreClk (clk : Nat → Int) (n : Nat) (w : Slot) (t : Task) : ℚ × Nat :=
  let durMin := minutesBetween w.start w.stop
  if durMin < 15 then (-1000000000, n)
  else
    let h := hourOf w.start
    let circ : ℚ :=
      (if t.mustMorning then (if 7 ≤ h ∧ h ≤ 12 then 1 else -0.3) else 0) +
      (if t.mustAfternoon then (if 13 ≤ h ∧ h ≤ 17 then 1 else -0.3) else 0)
    let ur : ℚ × Nat :=
      match t.deadline with
      | none => (0, n)
      | some d => (clampQ (1 - ((Int.tdiv (d - clk n) 60 : Int) : ℚ) / (60 * 24 * 7)) 0 1, n + 1)
    let early : ℚ := 1 / max 1 (((w.start - clk ur.2 : Int) : ℚ) / 3600)
    let len : ℚ := min 1 ((durMin : ℚ) / 120)
    let pr : ℚ := ((t.priority : ℚ) - 1) / 4
    (1.8 * pr + 1.4 * ur.1 + 0.8 * circ + 0.5 * len + 0.2 * early, ur.2 + 1)

/-- The best-index scan with a clocked scorer. -/
def bestIdxGoClk (scoreClk : Nat → α → ℚ × Nat) (elig : α → Bool) :
    List α → Nat → Nat → Option Nat → ℚ → Option Nat × Nat
  | [], _, n, best, _ => (best, n)
  | x :: xs, i, n, best, bestSc =>
    if elig x then
      let r := scoreClk n x
      if bestSc < r.1 then bestIdxGoClk scoreClk elig xs (i + 1) r.2 (some i) r.1
      else bestIdxGoClk scoreClk elig xs (i + 1) r.2 best bestSc
    else bestIdxGoClk scoreClk elig xs (i + 1) n best bestSc

/-- Entry point of the clocked best-index scan. -/
def bestIdxClk (scoreClk : Nat → α → ℚ × Nat) (elig : α → Bool) (l : List α) (n : Nat) :
    Option Nat × Nat :=
  bestIdxGoClk scoreClk elig l 0 n none (-1000000000)

/-- The carve loop with explicit clock reads. -/
def carveFClk (clk : Nat → Int) (t : Task) :
    Nat → Nat → List Slot → Nat → (List Slot × List Event) × Nat
  | 0, _, pool, n => ((pool, []), n)
  | fuel + 1, needMin, pool, n =>
    if needMin = 0 then ((pool, []), n)
    else
      match bestIdxClk (fun n2 w => slotScoreClk clk n2 w t) eligSlot pool n with
      | (none, n2) => ((pool, []), n2)
      | (some i, n2) =>
        match pool[i]? with
        | none => ((pool, []), n2)
        | some chosen =>
          let availMin := minutesBetween chosen.start chosen.stop
          let chunk := min t.maxChunkMin (min needMin availMin)
          let s := chosen.start
          let e := s + chunk * 60
          let sBuf := s - 5 * 60
          let eBuf := e + 10 * 60
          let blocks : List Event :=
            [mkEvent ("🔵 " ++ t.title) s e kTaskBlue,
             mkEvent "Buffer" sBuf s kBufferGray,
             mkEvent "Buffer" e eBuf kBufferGray]
          let pool2 := if chosen.stop ≤ eBuf then pool.eraseIdx i
            else pool.set i ⟨eBuf, chosen.stop⟩
          if t.splitOK then
            let r := carveFClk clk t fuel (needMin - chunk) pool2 n2
            ((r.1.1, blocks ++ r.1.2), r.2)
          else ((pool2, blocks), n2)

/-- The clocked carve loop at its canonical fuel. -/
def carveClk (clk : Nat → Int) (t : Task) (needMin : Nat) (pool : List Slot) (n : Nat) :
    (List Slot × List Event) × Nat :=
  carveFClk clk t (poolSpan pool / 600 + 1) needMin pool n

/-- The clocked per-task placement loop. -/
def goTasksClk (clk : Nat → Int) : List Task → List Slot → Nat → (List Slot × List Event) × Nat
  | [], pool, n => ((pool, []), n)
  | t :: ts, pool, n =>
    let r1 := carveClk clk t (max 15 t.estimateMin) pool n
    let r2 := goTasksClk clk ts r1.1.1 r1.2
    ((r2.1.1, r1.1.2 ++ r2.1.2), r2.2)

/-- Clocked `scheduleTasksIntoWindows`. -/
def scheduleTasksClk (clk : Nat → Int) (windows : List Slot) (tasks : List Task) (n : Nat) :
    List Event × Nat :=
  if tasks.isEmpty ∨ windows.isEmpty then ([], n)
  else
    let r := goTasksClk clk (sortTasks tasks) windows n
    (r.1.2, r.2)

/-- Clocked `planDay`; the habit placer reads no clock. -/
def planDayClk (clk : Nat → Int) (day : Int) (existing : List Event)
    (tasks : List Task) (habits : List Habit)
    (poolTasks : List Task) (poolHabits : List Habit) (n : Nat) : List Event × Nat :=
  let freeSlots := freeWindows day existing 15
  let r := scheduleTasksClk clk freeSlots (if tasks.isEmpty then poolTasks else tasks) n
  let busy := existing ++ r.1
  let freeAfterTasks := freeWindows day busy 15
  let plannedHabits :=
    scheduleHabits freeAfterTasks (if habits.isEmpty then poolHabits else habits)
  (r.1 ++ plannedHabits, r.2)

theorem slotScoreClk_const_fst (c : Int) (n : Nat) (w : Slot) (t : Task) :
    (slotScoreClk (fun _ => c) n w t).1 = slotScore c w t := by
  unfold slotScoreClk slotScore
  by_cases hd : minutesBetween w.start w.stop < 15
  · rw [if_pos hd, if_pos hd]
  · rw [if_neg hd, if_neg hd]
    rcases ht : t.deadline with _ | d <;> simp only [ht]

theorem bestIdxGoClk_const_fst (scoreClk : Nat → α → ℚ × Nat) (score : α → ℚ)
    (elig : α → Bool) (hsc : ∀ n x, (scoreClk n x).1 = score x) :
    ∀ (xs : List α) (i n : Nat) (best : Option Nat) (bestSc : ℚ),
      (bestIdxGoClk scoreClk elig xs i n best bestSc).1 =
        bestIdxGo score elig xs i best bestSc := by
  intro xs
  induction xs with
  | nil => intro i n best bestSc; rfl
  | cons x xs ih =>
    intro i n best bestSc
    have hclk : bestIdxGoClk scoreClk elig (x :: xs) i n best bestSc =
        if elig x then
          (if bestSc < (scoreClk n x).1 then
            bestIdxGoClk scoreClk elig xs (i + 1) (scoreClk n x).2 (some i) (scoreClk n x).1
          else bestIdxGoClk scoreClk elig xs (i + 1) (scoreClk n x).2 best bestSc)
        else bestIdxGoClk scoreClk elig xs (i + 1) n best bestSc := rfl
    have hun : bestIdxGo score elig (x :: xs) i best bestSc =
        if elig x ∧ bestSc < score x then bestIdxGo score elig xs (i + 1) (some i) (score x)
        else bestIdxGo score elig xs (i + 1) best bestSc := rfl
    rw [hclk, hun]
    by_cases he : elig x
    · rw [if_pos he, hsc n x]
      by_cases hlt : bestSc < score x
      · rw [if_pos hlt, if_pos ⟨he, hlt⟩, ih]
      · rw [if_neg hlt, if_neg (fun hcon => hlt hcon.2), ih]
    · rw [if_neg he, if_neg (fun hcon => he hcon.1), ih]

theorem carveFClk_const_fst (c : Int) (t : Task) :
    ∀ (fuel need : Nat) (pool : List Slot) (n : Nat),
      (carveFClk (fun _ => c) t fuel need pool n).1 = carveF c t fuel need pool := by
  intro fuel
  induction fuel with
  | zero => intro need pool n; rfl
  | succ a ih =>
    intro need pool n
    by_cases hneed : need = 0
    · simp only [carveFClk, carveF, hneed, if_pos]
    · rcases hres : bestIdxClk (fun n2 w => slotScoreClk (fun _ => c) n2 w t) eligSlot pool n
        with ⟨opt, n2⟩
      have hopt : opt = bestIdx (fun w => slotScore c w t) eligSlot pool := by
        have hfst := bestIdxGoClk_const_fst (fun n2 w => slotScoreClk (fun _ => c) n2 w t)
          (fun w => slotScore c w t) eligSlot
          (fun n2 w => slotScoreClk_const_fst c n2 w t) pool 0 n none (-1000000000)
        have h2 : (bestIdxClk (fun n2 w => slotScoreClk (fun _ => c) n2 w t)
            eligSlot pool n).1 = bestIdx (fun w => slotScore c w t) eligSlot pool := hfst
        rw [hres] at h2
        exact h2
      rcases hoptc : opt with _ | i
      · rw [hoptc] at hres hopt
        simp only [carveFClk, carveF, if_neg hneed, hres, ← hopt]
      · rw [hoptc] at hres hopt
        rcases hget : pool[i]? with _ | chosen
        · simp only [carveFClk, carveF, if_neg hneed, hres, ← hopt, hget]
        · by_cases hsplit : t.splitOK
          · simp only [carveFClk, carveF, if_neg hneed, hres, ← hopt, hget, if_pos hsplit]
            rw [ih]
          · simp only [carveFClk, carveF, if_neg hneed, hres, ← hopt, hget, if_neg hsplit]

theorem goTasksClk_const_fst (c : Int) :
    ∀ (ts : List Task) (pool : List Slot) (n : Nat),
      (goTasksClk (fun _ => c) ts pool n).1 = goTasks c ts pool := by
  intro ts
  induction ts with
  | nil => intro pool n; rfl
  | cons t ts ih =>
    intro pool n
    have hstep : goTasksClk (fun _ => c) (t :: ts) pool n =
        (((goTasksClk (fun _ => c) ts
            (carveClk (fun _ => c) t (max 15 t.estimateMin) pool n).1.1
            (carveClk (fun _ => c) t (max 15 t.estimateMin) pool n).2).1.1,
          (carveClk (fun _ => c) t (max 15 t.estimateMin) pool n).1.2 ++
            (goTasksClk (fun _ => c) ts
              (carveClk (fun _ => c) t (max 15 t.estimateMin) pool n).1.1
              (carveClk (fun _ => c) t (max 15 t.estimateMin) pool n).2).1.2),
          (goTasksClk (fun _ => c) ts
            (carveClk (fun _ => c) t (max 15 t.estimateMin) pool n).1.1
            (carveClk (fun _ => c) t (max 15 t.estimateMin) pool n).2).2) := rfl
    have hcarve : (carveClk (fun _ => c) t (max 15 t.estimateMin) pool n).1 =
        carve c t (max 15 t.estimateMin) pool :=
      carveFClk_const_fst c t _ _ pool n
    have hunstep : goTasks c (t :: ts) pool =
        ((goTasks c ts (carve c t (max 15 t.estimateMin) pool).1).1,
          (carve c t (max 15 t.estimateMin) pool).2 ++
            (goTasks c ts (carve c t (max 15 t.estimateMin) pool).1).2) := rfl
    rw [hstep, hunstep]
    show (_, _) = (_, _)
    rw [hcarve, ih]

theorem scheduleTasksClk_const_fst (c : Int) (ws : List Slot) (ts : List Task) (n : Nat) :
    (scheduleTasksClk (fun _ => c) ws ts n).1 = scheduleTasksIntoWindows c ws ts := by
  unfold scheduleTasksClk scheduleTasksIntoWindows
  by_cases hc : ts.isEmpty ∨ ws.isEmpty
  · rw [if_pos hc, if_pos hc]
  · rw [if_neg hc, if_neg hc]
    show (goTasksClk (fun _ => c) (sortTasks ts) ws n).1.2 = _
    rw [goTasksClk_const_fst c (sortTasks ts) ws n]

theorem planDayClk_const_fst (c : Int) (day : Int) (existing : List Event)
    (ts : List Task) (hs : List Habit) (pT : List Task) (pH : List Habit) (n : Nat) :
    (planDayClk (fun _ => c) day existing ts hs pT pH n).1 =
      planDay c day existing ts hs pT pH := by
  unfold planDayClk planDay
  dsimp only
  rw [scheduleTasksClk_const_fst c _ _ n]

/-- **C9.** Two-run determinism with the clock held constant: if every
`currentDateTime()` read of both runs returns the same fixed instant
`c`, the two runs of `planDay` return identical block lists, whatever
read indices they start from; both equal the single-`now` model at
`c`. -/
theorem C9_planDay_deterministic (day : Int) (existing : List Event)
    (ts : List Task) (hs : List Habit) (pT : List Task) (pH : List Habit)
    (clk1 clk2 : Nat → Int) (n1 n2 : Nat) (c : Int)
    (h1 : ∀ k, clk1 k = c) (h2 : ∀ k, clk2 k = c) :
    (planDayClk clk1 day existing ts hs pT pH n1).1 =
      (planDayClk clk2 day existing ts hs pT pH n2).1 := by
  have e1 : clk1 = fun _ => c := funext h1
  have e2 : clk2 = fun _ => c := funext h2
  rw [e1, e2, planDayClk_const_fst, planDayClk_const_fst]

/-- **C9, witness.** Two runs over one task with constant clocks and
different starting read indices coincide. -/
theorem C9_planDay_deterministic_witness :
    (planDayClk (fun _ => 21600) 0 [] [taskDemo] [] [] [] 0).1 =
      (planDayClk (fun _ => 21600) 0 [] [taskDemo] [] [] [] 5).1 :=
  C9_planDay_deterministic 0 [] [taskDemo] [] [] []
    (fun _ => 21600) (fun _ => 21600) 0 5 21600 (fun _ => rfl) (fun _ => rfl)

end EduSync
